import Mathlib

/-!
Verification of `project_bundler.py`: a tool that serializes a directory
tree (structure plus file contents) into a single flat text document, and
can reverse that process to reconstruct the tree.

Shallow embedding conventions:

* A Python `str` is modelled as a `List Char` (`PyStr`): Python strings are
  sequences of Unicode code points, exactly what `List Char` is.
* The host platform is modelled as POSIX: `os.sep` is `'/'`.
* A directory's entry list (in OS enumeration order, as `os.walk` /
  `os.scandir` would yield it) is modelled by the inductive `Tree`.
* File contents are modelled by `Content`: either text (the decoded string)
  or `binary` (bytes that raise `UnicodeDecodeError` when decoded as text).
* `sys.stderr` output is modelled as a list of message strings.
* Python's `sorted` is a stable sort; any stable sort by the same total
  preorder computes the same list, so it is modelled by a stable insertion
  sort (`pySorted`).
-/

namespace ProjectBundler

/-- A Python string: a sequence of Unicode code points. -/
abbrev PyStr := List Char

/-! ## Python character classes and primitive string operations -/

/-- Characters for which Python's `str.isspace()` is true (the set stripped
by `str.strip()` / `str.rstrip()` with no arguments). -/
def isPySpace (c : Char) : Bool :=
  c = ' ' || c = '\t' || c = '\n' || c = '\r' || c.val = 0x0b || c.val = 0x0c ||
  (0x1c ≤ c.val && c.val ≤ 0x1f) || c.val = 0x85 || c.val = 0xa0 ||
  c.val = 0x1680 || (0x2000 ≤ c.val && c.val ≤ 0x200a) ||
  c.val = 0x2028 || c.val = 0x2029 || c.val = 0x202f || c.val = 0x205f || c.val = 0x3000

/-- The line-boundary characters recognised by Python's `str.splitlines()`
(`\r\n` is additionally treated as a single boundary). -/
def isLineBreak (c : Char) : Bool :=
  c = '\n' || c = '\r' || c.val = 0x0b || c.val = 0x0c ||
  c.val = 0x1c || c.val = 0x1d || c.val = 0x1e || c.val = 0x85 ||
  c.val = 0x2028 || c.val = 0x2029

/-- Python `s.startswith(pre)`. -/
def startswith (s pre : PyStr) : Bool :=
  match s, pre with
  | _, [] => true
  | [], _ :: _ => false
  | c :: cs, p :: ps => p = c && startswith cs ps

/-- Python `s.endswith(suf)`. -/
def endswith (s suf : PyStr) : Bool :=
  startswith s.reverse suf.reverse

/-- Python `sub in s` (substring containment). -/
def containsSub (s sub : PyStr) : Bool :=
  startswith s sub ||
    match s with
    | [] => false
    | _ :: t => containsSub t sub

/-- Python `s.rsplit(sep, 1)[0]`: everything before the last occurrence of
`sep` in `s` (the whole of `s` when `sep` does not occur). -/
def rsplitBefore (s sep : PyStr) : PyStr :=
  match s with
  | [] => []
  | c :: t =>
    if containsSub t sep then c :: rsplitBefore t sep
    else if startswith (c :: t) sep then []
    else c :: rsplitBefore t sep

/-- Python `s.lstrip()`. -/
def pyLstrip (s : PyStr) : PyStr := s.dropWhile isPySpace

/-- Python `s.rstrip()`. -/
def pyRstrip (s : PyStr) : PyStr := (s.reverse.dropWhile isPySpace).reverse

/-- Python `s.strip()`. -/
def pyStrip (s : PyStr) : PyStr := pyRstrip (pyLstrip s)

/-- Python `s.replace(old, new)` for single-character `old` / `new`. -/
def pyReplaceChar (s : PyStr) (old new : Char) : PyStr :=
  s.map (fun c => if c = old then new else c)

/-- Python `s.lower()`, restricted to the ASCII case mapping (the only case
relevant to the `.py` suffix test in the source). -/
def pyLower (s : PyStr) : PyStr := s.map Char.toLower

/-- Python `os.path.basename(p)` on a POSIX host: the part after the last
`'/'`. -/
def basename (p : PyStr) : PyStr :=
  (p.reverse.takeWhile (fun c => c ≠ '/')).reverse

/-- Python `'\n'.join(lines)`. -/
def joinNL : List PyStr → PyStr
  | [] => []
  | [l] => l
  | l :: l2 :: ls => l ++ '\n' :: joinNL (l2 :: ls)

/-- Concatenation of the given lines, each terminated by `'\n'`. This is the
canonical form of a text document all of whose lines are newline-terminated. -/
def unlines (ls : List PyStr) : PyStr := ls.foldr (fun l acc => l ++ '\n' :: acc) []

/-- Helper for `pySplitlines`: prepend a character to the first line of an
already-split tail (starting a singleton line when there is none). -/
def consFirstLine (c : Char) : List PyStr → List PyStr
  | [] => [[c]]
  | l :: ls => (c :: l) :: ls

/-- Does the string start with a line-feed character? (Lookahead used to give
`\r\n` its single-boundary treatment.) -/
def headIsLF (s : PyStr) : Bool :=
  match s with
  | [] => false
  | c :: _ => c = '\n'

/-- Python `s.splitlines()`. A `'\r'` immediately followed by `'\n'` forms a
single boundary; this is captured by lookahead: the split of `'\r' :: rest`
when `rest` starts with `'\n'` equals the split of `rest` itself. -/
def pySplitlines : PyStr → List PyStr
  | [] => []
  | c :: rest =>
    if isLineBreak c then
      if c = '\r' && headIsLF rest then pySplitlines rest
      else [] :: pySplitlines rest
    else consFirstLine c (pySplitlines rest)

/-- A run of `n` spaces (Python `' ' * n`). -/
def spaces (n : Nat) : PyStr := List.replicate n ' '

/-- Python `<` on strings: lexicographic comparison by code point. -/
def pyLtStr : PyStr → PyStr → Bool
  | [], [] => false
  | [], _ :: _ => true
  | _ :: _, [] => false
  | a :: s, b :: t => a < b || (a = b && pyLtStr s t)

/-- Stable insertion of `x` into `l`: `x` goes before the first element
strictly greater than it, hence after all elements equal to it. -/
def insertStable (lt : α → α → Bool) (x : α) : List α → List α
  | [] => [x]
  | y :: ys => if lt y x then y :: insertStable lt x ys else x :: y :: ys

/-- Stable insertion sort; extensionally equal to Python's `sorted` for any
total preorder, since stable sorts are unique. -/
def pySorted (lt : α → α → Bool) : List α → List α
  | [] => []
  | x :: xs => insertStable lt x (pySorted lt xs)

/-- A string free of line-boundary characters (a well-formed single line). -/
def lineClean (l : PyStr) : Bool := l.all (fun c => !isLineBreak c)

/-! ## Glob matching (`fnmatch`, source lines 19-24)

`fnmatch.fnmatch` on a POSIX host is case-sensitive full-string glob
matching: `*` matches any (possibly empty) sequence, `?` any single
character, `[seq]` a character class (leading `!` negates; `]` directly
after `[` or `[!` is a literal; `a-b` is a code-point range; an unmatched
`[` is a literal). The matcher is written with explicit fuel so that it is
structurally recursive (hence computable by the kernel); the initial fuel
`pattern.length + name.length + 1` strictly exceeds the combined length,
which every recursive call decreases, so the fuel never runs out. -/

/-- Split a class body at the first `']'`, returning the body and the rest
of the pattern; `none` when there is no closing `']'`. -/
def splitAtRBracket : PyStr → Option (PyStr × PyStr)
  | [] => none
  | c :: t =>
    if c = ']' then some ([], t)
    else (splitAtRBracket t).map (fun pr => (c :: pr.1, pr.2))

/-- Parse the body of a `[...]` class per `fnmatch.translate`: a leading
`!` (after which a literal `]` may follow) or a leading literal `]` is
skipped before searching for the closing `]`. -/
def splitClass (p : PyStr) : Option (PyStr × PyStr) :=
  match p with
  | '!' :: ']' :: r => (splitAtRBracket r).map (fun pr => ('!' :: ']' :: pr.1, pr.2))
  | ']' :: r => (splitAtRBracket r).map (fun pr => (']' :: pr.1, pr.2))
  | r => splitAtRBracket r

/-- Does character `c` match the (negation-free) items of a class body?
`a-b` is a code-point range; other characters are literals; a trailing or
leading `-` is a literal. -/
def classItems : PyStr → Char → Bool
  | [], _ => false
  | a :: '-' :: b :: rest, c => (decide (a ≤ c) && decide (c ≤ b)) || classItems rest c
  | a :: rest, c => (a = c) || classItems rest c

/-- Strip an optional leading `!` from a class body, returning the negation
flag and the remaining items. -/
def classNeg (content : PyStr) : Bool × PyStr :=
  match content with
  | '!' :: t => (true, t)
  | t => (false, t)

/-- Fuel-indexed glob matcher: does `p` match all of `s`? -/
def matchGlobFuel : Nat → PyStr → PyStr → Bool
  | 0, _, _ => false
  | _ + 1, [], s => s.isEmpty
  | fuel + 1, '*' :: p, s =>
    matchGlobFuel fuel p s ||
      (match s with
       | [] => false
       | _ :: s2 => matchGlobFuel fuel ('*' :: p) s2)
  | fuel + 1, '?' :: p, s =>
    (match s with
     | [] => false
     | _ :: s2 => matchGlobFuel fuel p s2)
  | fuel + 1, '[' :: p, s =>
    (match splitClass p with
     | none =>
       (match s with
        | [] => false
        | d :: s2 => ('[' = d) && matchGlobFuel fuel p s2)
     | some (content, rest) =>
       (match s with
        | [] => false
        | d :: s2 =>
          (classItems (classNeg content).2 d != (classNeg content).1) &&
            matchGlobFuel fuel rest s2))
  | fuel + 1, c :: p, s =>
    (match s with
     | [] => false
     | d :: s2 => (c = d) && matchGlobFuel fuel p s2)

/-- Python `fnmatch.fnmatch(name, pattern)` on a POSIX host. -/
def fnmatch (name pattern : PyStr) : Bool :=
  matchGlobFuel (pattern.length + name.length + 1) pattern name

/-- Source lines 19-24: a name is excluded when some pattern glob-matches it
or equals it exactly. -/
def is_excluded (name : PyStr) (exclusions : List PyStr) : Bool :=
  exclusions.any (fun pattern => fnmatch name pattern || name == pattern)

/-- Split at every `'\n'` (each separator consumed), the decomposition of a
text file into the lines `for line in f` iterates (the terminating newline
of each yielded line is immaterial here because every use strips the line).
Unlike `str.splitlines` this treats `'\n'` as the only separator. -/
def splitNLChar : PyStr → List PyStr
  | [] => [[]]
  | c :: rest =>
    if c = '\n' then [] :: splitNLChar rest
    else consFirstLine c (splitNLChar rest)

/-- Source lines 8-17: load exclusion patterns from the config file. The
file system is modelled by an `Option PyStr`: `none` when
`os.path.exists(config_file)` is false, `some content` otherwise. The
`for line in f` loop splits the text on newlines only (`splitNLChar`; a
trailing empty piece is discarded by the `if line` truthiness test like any
blank line). The second component of the result models everything the
function writes to `stderr` (it writes nothing on any path). -/
def load_exclusions (config_file : Option PyStr) : List PyStr × List PyStr :=
  match config_file with
  | none => ([], [])
  | some content =>
    (((splitNLChar content).map pyStrip).filter
        (fun line => !line.isEmpty && !startswith line ['#']), [])

/-! ## The data model: file contents and directory trees -/

/-- The content of a file on disk: `text s` when its bytes decode as UTF-8
to the string `s`, `binary` when decoding raises `UnicodeDecodeError`. -/
inductive Content where
  | text (s : PyStr)
  | binary
deriving DecidableEq

/-- The entry list of one directory, in OS enumeration order (the order
`os.scandir` would yield, before any sorting by the tool). A `Tree` value is
the list of entries of a directory: empty, or a file entry followed by the
remaining entries, or a subdirectory entry (with its own entry list)
followed by the remaining entries. -/
inductive Tree where
  | nilDir : Tree
  | consFile (name : PyStr) (c : Content) (rest : Tree) : Tree
  | consDir (name : PyStr) (sub : Tree) (rest : Tree) : Tree
deriving DecidableEq

/-- The `(name, content)` pairs of the files of a directory, in entry
order (`filenames` of `os.walk` for that directory). -/
def filesOf : Tree → List (PyStr × Content)
  | .nilDir => []
  | .consFile n c rest => (n, c) :: filesOf rest
  | .consDir _ _ rest => filesOf rest

/-- The file names of a directory, in entry order. -/
def fileNamesOf (t : Tree) : List PyStr := (filesOf t).map (·.1)

/-- Comparison of `(path-or-name, payload)` pairs by their first component,
the key used by every `sorted` call in the source. -/
def fstLt {α : Type} (a b : PyStr × α) : Bool := pyLtStr a.1 b.1

/-- Source lines 112-116, recursive part of the `os.walk` traversal: for
each non-excluded subdirectory (in sorted order), the walk of that
subdirectory. Each pair holds the subdirectory name and the collected
`(relative path, content)` records of that subdirectory, the paths being
relative to the subdirectory itself; the caller prefixes `name ++ "/"`.
This mirrors `os.walk` with the in-place
`dirnames[:] = sorted([d for d in dirnames if not is_excluded(d, exclusions)])`
filter: an excluded directory is never entered, so none of its descendants
are visited. -/
def subWalk (excl : List PyStr) : Tree → List (PyStr × List (PyStr × Content))
  | .nilDir => []
  | .consFile _ _ rest => subWalk excl rest
  | .consDir n sub rest =>
    if is_excluded n excl then subWalk excl rest
    else
      (n, (pySorted fstLt ((filesOf sub).filter (fun p => !is_excluded p.1 excl))) ++
          (pySorted fstLt (subWalk excl sub)).flatMap
            (fun p => p.2.map (fun q => (p.1 ++ '/' :: q.1, q.2))))
      :: subWalk excl rest

/-- Source lines 111-116: the `(relative path, content)` records collected
by the `os.walk` loop of `concatenate_files` over one directory, paths
relative to that directory with `/` separators. Root-level files keep their
bare name (`os.path.relpath(os.path.join(root, f), root) = f`). -/
def walkDir (excl : List PyStr) (t : Tree) : List (PyStr × Content) :=
  (pySorted fstLt ((filesOf t).filter (fun p => !is_excluded p.1 excl))) ++
  (pySorted fstLt (subWalk excl t)).flatMap
    (fun p => p.2.map (fun q => (p.1 ++ '/' :: q.1, q.2)))

/-- All `(relative path, content)` pairs of a directory tree, with no
exclusion, no sorting: the reference enumeration the walk is compared to. -/
def allFiles : Tree → List (PyStr × Content)
  | .nilDir => []
  | .consFile n c rest => (n, c) :: allFiles rest
  | .consDir n sub rest =>
    (allFiles sub).map (fun q => (n ++ '/' :: q.1, q.2)) ++ allFiles rest

/-! ## The encoder (source lines 26-163) -/

/-- The two cosmetic-stripping command-line toggles (source lines 269-278). -/
structure Args where
  strip_python_comments : Bool
  strip_blank_lines : Bool
deriving DecidableEq

/-- Source lines 41-54 (`remove_blank_lines`): drop the lines that are
empty or whitespace-only; if any line remains, rejoin with `\n` and add a
single trailing newline, otherwise return the empty string. -/
def remove_blank_lines (text_content : PyStr) : PyStr :=
  let lines := pySplitlines text_content
  let processed_lines := lines.filter (fun line => !(pyStrip line).isEmpty)
  if processed_lines.isEmpty then [] else joinNL processed_lines ++ ['\n']

/-- Source lines 26-39 and 56-75. The tokenize-based comment remover
(`_core_remove_python_comments_tokenize`, a Python-stdlib `tokenize`
computation) is kept abstract as a parameter `core`; `none` models the
`tokenize.TokenError` it may raise, which `remove_python_comments`
propagates. On success the result is passed through `remove_blank_lines`
(source line 75). -/
def remove_python_comments (core : PyStr → Option PyStr) (code_string : PyStr) :
    Option PyStr :=
  (core code_string).map remove_blank_lines

/-- Source line 131: a file is treated as Python when the lower-cased
basename of its path ends in `.py`. -/
def isPythonFile (path : PyStr) : Bool :=
  endswith (pyLower (basename path)) ['.', 'p', 'y']

/-- Source lines 133-149: the content transformations applied to a text
file before writing. When `--strip-python-comments` is active and the file
is Python, a successful comment strip (which already removes blank lines)
is used and blank-line stripping is not applied again; in every other case
(`none` from the oracle models both "flag off" and "tokenize failed"),
blank-line stripping applies exactly when `--strip-blank-lines` is set.
(The `stderr` warning on a failed strip, line 141, is not modelled.) -/
def processedContent (core : PyStr → Option PyStr) (args : Args) (isPy : Bool)
    (content : PyStr) : PyStr :=
  match (if args.strip_python_comments && isPy
         then remove_python_comments core content else none) with
  | some stripped => stripped
  | none => if args.strip_blank_lines then remove_blank_lines content else content

/-- Source lines 126-158: the content portion written for one file record.
For text, the (possibly transformed) content followed by one `\n` if the
content is non-empty and lacks a trailing newline (lines 151-155); for a
file whose bytes fail to decode, the literal sentinel line (lines 157-158). -/
def emitContent (core : PyStr → Option PyStr) (args : Args) (relPath : PyStr) :
    Content → PyStr
  | .binary => "binary file\n".data
  | .text content =>
    let processed := processedContent core args (isPythonFile relPath) content
    processed ++
      (if !processed.isEmpty && !endswith processed ['\n'] then ['\n'] else [])

/-- Source lines 124, 126-158, 163: one full file record of the
concatenated-files section: header line, content, footer line, blank line. -/
def fileRecord (core : PyStr → Option PyStr) (args : Args) (p : PyStr)
    (c : Content) : PyStr :=
  "# --- File: ".data ++ p ++ " ---\n".data ++
  emitContent core args p c ++
  "# --- End of File: ".data ++ p ++ " ---\n\n".data

/-- Source lines 102-163 (`concatenate_files`): the text appended to the
output file: the section banner, then every collected record in global
sorted order (line 118: sort by the `/`-separated relative path; the paths
collected by `walkDir` already use `/`). -/
def concatenate_files (core : PyStr → Option PyStr) (args : Args)
    (excl : List PyStr) (t : Tree) : PyStr :=
  "\n\n# --- Concatenated Files ---\n\n".data ++
  (pySorted fstLt (walkDir excl t)).flatMap (fun p => fileRecord core args p.1 p.2)

/-- Source lines 78-100 (`generate_tree_structure`), recursive part: the
listing blocks of the non-excluded subdirectories of a directory, in sorted
order. Each block is the subdirectory line (`4 * level` spaces, name, `/`),
its non-excluded files (one level deeper), then the blocks of its own
subdirectories — exactly the order `os.walk` visits them top-down. `level`
is `relative_dirpath.count(os.sep) + 1` in the source, i.e. the depth. -/
def subDirBlocks (excl : List PyStr) : Tree → Nat → List (PyStr × List PyStr)
  | .nilDir, _ => []
  | .consFile _ _ rest, lvl => subDirBlocks excl rest lvl
  | .consDir n sub rest, lvl =>
    if is_excluded n excl then subDirBlocks excl rest lvl
    else
      (n, (spaces (4 * lvl) ++ n ++ ['/']) ::
          ((pySorted pyLtStr ((fileNamesOf sub).filter (fun f => !is_excluded f excl))).map
            (fun f => spaces (4 * (lvl + 1)) ++ f)) ++
          (pySorted fstLt (subDirBlocks excl sub (lvl + 1))).flatMap (fun p => p.2))
      :: subDirBlocks excl rest lvl

/-- The lines of the tree listing: the root display line (source line 88;
`basename(abspath(root)) + '/'`, or `./` when the root is `.` — kept as a
parameter `rootDisplay`), the root's files at one indent level, then the
subdirectory blocks. -/
def treeListLines (rootDisplay : PyStr) (excl : List PyStr) (t : Tree) : List PyStr :=
  rootDisplay ::
  ((pySorted pyLtStr ((fileNamesOf t).filter (fun f => !is_excluded f excl))).map
    (fun f => spaces 4 ++ f)) ++
  (pySorted fstLt (subDirBlocks excl t 1)).flatMap (fun p => p.2)

/-- Source lines 78-100: the tree listing, `'\n'.join(lines)`. -/
def generate_tree_structure (rootDisplay : PyStr) (excl : List PyStr) (t : Tree) :
    PyStr :=
  joinNL (treeListLines rootDisplay excl t)

/-- Source lines 294-300: the full bundle document written in forward mode:
the structure banner, the tree listing, then the concatenated-files section. -/
def encodeBundle (core : PyStr → Option PyStr) (args : Args) (rootDisplay : PyStr)
    (excl : List PyStr) (t : Tree) : PyStr :=
  "# --- Project Structure ---\n\n".data ++
  generate_tree_structure rootDisplay excl t ++
  concatenate_files core args excl t

/-! ## The decoder (`reverse_mode`, source lines 165-249) -/

/-- Source line 171. -/
def FILE_HEADER : PyStr := "# --- File: ".data

/-- Source line 172. -/
def FILE_FOOTER : PyStr := "# --- End of File: ".data

/-- Source line 173. -/
def SECTION_HEADER : PyStr := "# --- Concatenated Files ---".data

/-- The decoder's mutable state: the open file's header path
(`current_path_str_for_reverse`), the buffered content lines
(`buffer_for_reverse`), plus the observable effects accumulated so far:
the sequence of file writes `(relative path, content)` under the target
root, and the messages written to `stderr`. -/
structure RevState where
  currentPath : Option PyStr
  buffer : List PyStr
  writes : List (PyStr × PyStr)
  errors : List PyStr
deriving DecidableEq

/-- Source lines 216-225: the content written when flushing a buffer:
the lines joined with `\n`; written verbatim when that equals the literal
sentinel `binary file` and the buffer is a single line (the sentinel gets
its newline back), otherwise with a single `\n` appended when non-empty and
not already newline-terminated. -/
def writtenContent (buffer : List PyStr) : PyStr :=
  let content_to_write := joinNL buffer
  if content_to_write == "binary file".data && buffer.length == 1 then
    "binary file\n".data
  else
    content_to_write ++
      (if !content_to_write.isEmpty && !endswith content_to_write ['\n']
       then ['\n'] else [])

/-- Source line 206: normalize both separators in a header path to
`os.sep` (`'/'` on the modelled POSIX host). -/
def normalizeHeaderPath (p : PyStr) : PyStr :=
  pyReplaceChar (pyReplaceChar p '/' '/') '\\' '/'

/-- Source lines 203-228 (`_flush_current_file_for_reverse`): the guard at
line 205 is `if current_path_str_for_reverse:` — Python string truthiness —
so both `None` and the empty string mean "no file open": nothing is written
and an empty current path is left in place. When a file with a non-empty
path is open, a write of the buffered content to its normalized path is
recorded and the path is reset to `None`. `os.makedirs(..., exist_ok=True)`
and the `open(dest, 'w')` write are modelled as always succeeding, so the
`OSError` and `IOError` branches (lines 211-214, 226-227) are unreachable.
The buffer itself is not cleared here (the call sites reset it, lines 241
and 244). -/
def flushFile (st : RevState) : RevState :=
  match st.currentPath with
  | none => st
  | some p =>
    if p.isEmpty then st
    else
      { st with
        currentPath := none
        writes := st.writes ++ [(normalizeHeaderPath p, writtenContent st.buffer)] }

/-- Source line 239: the malformed-header warning written to `stderr`. -/
def malformedWarning (line : PyStr) : PyStr :=
  "Warning: Malformed file header (missing ' ---' marker): ".data ++ line ++ ['\n']

/-- Source lines 230-247: processing of one line of the concatenated-files
section. A line that starts with the file-header marker and (after
`rstrip`) ends with ` ---` flushes any open file and opens a new one named
by the text between the marker and the last ` ---` (stripped); if ` ---`
does not occur after the marker (possible only when the terminal ` ---`
overlaps the marker's trailing space), a warning is emitted and no file is
opened. A line starting with the footer marker flushes the open file. Any
other line is buffered when a file is open and discarded otherwise; the
test at line 246 is again string truthiness, so a file whose header path
stripped to the empty string counts as not open and the line is dropped. -/
def processLine (st : RevState) (line : PyStr) : RevState :=
  let line_stripped_for_header_check := pyRstrip line
  if startswith line FILE_HEADER &&
      endswith line_stripped_for_header_check " ---".data then
    let st1 := flushFile st
    let path_extract_part := line.drop FILE_HEADER.length
    if containsSub path_extract_part " ---".data then
      { st1 with
        currentPath := some (pyStrip (rsplitBefore path_extract_part " ---".data))
        buffer := [] }
    else
      { st1 with
        errors := st1.errors ++ [malformedWarning line]
        currentPath := none
        buffer := [] }
  else if startswith line FILE_FOOTER then
    let st2 := flushFile st
    { st2 with buffer := [] }
  else
    match st.currentPath with
    | some p => if p.isEmpty then st else { st with buffer := st.buffer ++ [line] }
    | none => st

/-- Source lines 186-190: index of the first line whose `strip()` equals
the given predicate's target — modelled generically as the first index
satisfying `p` (the `enumerate` loop with `break`). -/
def findLineIdx (p : PyStr → Bool) : List PyStr → Option Nat
  | [] => none
  | l :: ls => if p l then some 0 else (findLineIdx p ls).map (· + 1)

/-- Source lines 198-249: run the line scanner over the content lines and
perform the final flush, returning the file writes (in order) and the
`stderr` messages. -/
def runScanner (content_lines : List PyStr) : List (PyStr × PyStr) × List PyStr :=
  let final := flushFile (content_lines.foldl processLine ⟨none, [], [], []⟩)
  (final.writes, final.errors)

/-- Source lines 165-249 (`reverse_mode`): split the input into lines, find
the first line whose `strip()` is the section header — reporting and
aborting with no writes when there is none (lines 191-193) — then scan the
lines starting two past the header line (line 198:
`all_lines[start_idx + 2:]`). The input-file read (lines 175-183) is
modelled as succeeding with the given text. -/
def reverse_mode (input : PyStr) : List (PyStr × PyStr) × List PyStr :=
  let all_lines := pySplitlines input
  match findLineIdx (fun line => pyStrip line == SECTION_HEADER) all_lines with
  | none =>
    ([], ["Input file missing '# --- Concatenated Files ---' header.\n".data])
  | some start_idx => runScanner (all_lines.drop (start_idx + 2))

/-- The content of the file at relative path `p` after performing a list of
writes into a fresh empty target root: each write truncates (`open(dest,
'w')`), so the last write to `p` wins; `none` when `p` was never written. -/
def fileContent (writes : List (PyStr × PyStr)) (p : PyStr) : Option PyStr :=
  ((writes.filter (fun w => w.1 == p)).getLast?).map (·.2)

/-! ## Well-formedness of names, contents and trees -/

/-- A file or directory name that the bundle format can carry faithfully:
non-empty, unchanged by `strip()`, free of line breaks and of both
separators, and distinct from the section-header text. -/
def nameOK (n : PyStr) : Bool :=
  !n.isEmpty && pyStrip n == n &&
  n.all (fun c => !isLineBreak c && c ≠ '/' && c ≠ '\\') &&
  n != SECTION_HEADER

/-- A content line the scanner treats as plain content: free of line
breaks and not starting with either record marker. -/
def contentLineOK (l : PyStr) : Bool :=
  lineClean l && !startswith l FILE_HEADER && !startswith l FILE_FOOTER

/-- Text content that the bundle format round-trips exactly: it is a
newline-terminated sequence of lines (equivalently: empty, or using only
`\n` as line separator and ending in one), its last line is not blank, and
every line is scanner-safe. -/
def contentOK (s : PyStr) : Bool :=
  unlines (pySplitlines s) == s &&
  (pySplitlines s).all contentLineOK &&
  (pySplitlines s).getLast? != some []

/-- `contentOK` lifted to `Content`; binary files are always representable
(by the sentinel). -/
def contentOKc : Content → Bool
  | .text s => contentOK s
  | .binary => true

/-- Every name and every text content in the tree is representable. -/
def treeOK : Tree → Bool
  | .nilDir => true
  | .consFile n c rest => nameOK n && contentOKc c && treeOK rest
  | .consDir n sub rest => nameOK n && treeOK sub && treeOK rest

/-- A relative path assembled from `nameOK` components: non-empty,
strip-invariant, free of line breaks and backslashes (it may of course
contain `/`). -/
def pathOK (p : PyStr) : Bool :=
  !p.isEmpty && pyStrip p == p && p.all (fun c => !isLineBreak c && c ≠ '\\')


/-! ## Derived forms and concrete instances used by the claims -/

/-- Both stripping toggles off. -/
def argsOff : Args := ⟨false, false⟩

/-- An arbitrary comment-stripping oracle (unused when the toggle is off). -/
def core0 : PyStr → Option PyStr := fun _ => none

/-- The header line the encoder writes for path `p` (source line 124,
without its terminating newline). -/
def headerLine (p : PyStr) : PyStr := "# --- File: ".data ++ p ++ " ---".data

/-- The footer line the encoder writes for path `p` (source line 163,
without its newlines). -/
def footerLine (p : PyStr) : PyStr := "# --- End of File: ".data ++ p ++ " ---".data

/-- The lines the decoder buffers for a record of the given content (when
the bundle was produced with both toggles off and the content is
representable). -/
def contentLinesOf : Content → List PyStr
  | .text s => pySplitlines s
  | .binary => ["binary file".data]

/-- The lines of one file record in the bundle: header line, content
lines, footer line, and the separating blank line. -/
def recordBlockLines (p : PyStr) (c : Content) : List PyStr :=
  headerLine p :: contentLinesOf c ++ [footerLine p, []]

/-- The content the decoder recreates for a record of the given content:
text is reproduced exactly, binary becomes the sentinel line. -/
def rtContent : Content → PyStr
  | .text s => s
  | .binary => "binary file\n".data

/-- Join path components with `/`. -/
def joinSlash : List PyStr → PyStr
  | [] => []
  | [n] => n
  | n :: n2 :: ns => n ++ '/' :: joinSlash (n2 :: ns)

/-- Remove every excluded entry from a directory tree: an excluded file
disappears, an excluded directory disappears together with its entire
subtree. This is the reference tree for exclusion correctness: the claim
that no excluded file or directory, and no descendant of an excluded
directory, contributes anything to the bundle is the statement that the
traversal and the tree listing of `t` coincide with those of
`pruneTree excl t`. -/
def pruneTree (excl : List PyStr) : Tree → Tree
  | .nilDir => .nilDir
  | .consFile n c rest =>
    if is_excluded n excl then pruneTree excl rest
    else .consFile n c (pruneTree excl rest)
  | .consDir n sub rest =>
    if is_excluded n excl then pruneTree excl rest
    else .consDir n (pruneTree excl sub) (pruneTree excl rest)

/-- A name contains no `/` — true of every real directory-entry name that
`os.walk` can produce, since `/` is the path separator. -/
def slashFree (n : PyStr) : Bool := n.all (fun c => c ≠ '/')

/-- Every file and directory name in the tree is `/`-free. -/
def namesSlashFree : Tree → Bool
  | .nilDir => true
  | .consFile n _ rest => slashFree n && namesSlashFree rest
  | .consDir n sub rest => slashFree n && namesSlashFree sub && namesSlashFree rest

/-- Split a path at every `/`: the canonical decomposition of a record
path into its name components, inverse to `joinSlash` on `/`-free
components. -/
def splitSlash : PyStr → List PyStr
  | [] => [[]]
  | c :: rest =>
    if c = '/' then [] :: splitSlash rest
    else consFirstLine c (splitSlash rest)

/-- Claim C4 as stated: every non-empty emitted record content ends with
exactly one trailing newline (a final `\n` not preceded by another). -/
def claimC4 : Prop :=
  ∀ (core : PyStr → Option PyStr) (args : Args) (p : PyStr) (c : Content),
    emitContent core args p c ≠ [] →
    endswith (emitContent core args p c) ['\n'] = true ∧
    endswith (emitContent core args p c) "\n\n".data = false

/-- Claim C5's reporting part as stated: an input whose lines include one
starting with the file-header marker but (after `rstrip`) not ending with
the ` ---` marker makes the decoder report a diagnostic on `stderr`. -/
def claimC5 : Prop :=
  ∀ input : PyStr,
    (∃ l ∈ pySplitlines input,
       startswith l FILE_HEADER = true ∧
       endswith (pyRstrip l) " ---".data = false) →
    (reverse_mode input).2 ≠ []

/-- Claim C6 as stated: every line strictly after the first line matching
the section header is processed by the line-by-line scanner. -/
def claimC6 : Prop :=
  ∀ (sh : PyStr) (ls : List PyStr),
    (pyStrip sh == SECTION_HEADER) = true →
    lineClean sh = true →
    (∀ l ∈ ls, lineClean l = true) →
    reverse_mode (unlines (sh :: ls)) = runScanner ls

/-- Counterexample tree for C1: a text file whose content has no trailing
newline. -/
def treeC1cex : Tree := .consFile "a.txt".data (.text "hello".data) .nilDir

/-- Witness tree for C1: a text file and a binary file in a subdirectory. -/
def treeC1w : Tree :=
  .consFile "b.txt".data (.text "hi\n".data)
    (.consDir "sub".data (.consFile "c.bin".data .binary .nilDir) .nilDir)

/-- Witness tree for C2: a log file and a `build` directory holding a
descendant file (both to be excluded) next to a kept text file. -/
def treeC2w : Tree :=
  .consFile "skip.log".data (.text "x\n".data)
    (.consDir "build".data
      (.consFile "inner.txt".data (.text "z\n".data) .nilDir)
      (.consFile "a.txt".data (.text "x\n".data) .nilDir))

/-- Counterexample input for C5: a well-formed record, then a line starting
with the file-header marker but missing the closing ` ---` marker, then
another well-formed record. -/
def docC5cex : PyStr :=
  ("# --- Concatenated Files ---\n\n" ++
   "# --- File: a.txt ---\nx\n# --- End of File: a.txt ---\n\n" ++
   "# --- File: broken\n\n" ++
   "# --- File: b.txt ---\ny\n# --- End of File: b.txt ---\n").data

/-! ## Helper lemmas -/

/-! ## Basic lemmas about the string operations -/

theorem startswith_nil_pre (s : PyStr) : startswith s [] = true := by
  cases s <;> rfl

theorem startswith_append_left (pre rest : PyStr) :
    startswith (pre ++ rest) pre = true := by
  induction pre with
  | nil => exact startswith_nil_pre rest
  | cons c cs ih => simp [startswith, ih]

theorem startswith_self (s : PyStr) : startswith s s = true := by
  simpa using startswith_append_left s []

theorem endswith_append_left (x suf : PyStr) :
    endswith (x ++ suf) suf = true := by
  unfold endswith
  rw [List.reverse_append]
  exact startswith_append_left suf.reverse x.reverse

theorem containsSub_nil (sub : PyStr) :
    containsSub [] sub = startswith [] sub := by
  unfold containsSub
  simp

theorem containsSub_cons (c : Char) (t sub : PyStr) :
    containsSub (c :: t) sub = (startswith (c :: t) sub || containsSub t sub) := rfl

theorem containsSub_self (sub : PyStr) : containsSub sub sub = true := by
  cases sub with
  | nil => rfl
  | cons c t => rw [containsSub_cons, startswith_self]; simp

theorem containsSub_append_right (x sub : PyStr) :
    containsSub (x ++ sub) sub = true := by
  induction x with
  | nil => simp only [List.nil_append]; exact containsSub_self sub
  | cons c cs ih =>
    rw [List.cons_append, containsSub_cons, ih]
    simp

theorem rsplitBefore_append_sep (p sep : PyStr) (hsep : sep ≠ [])
    (hbase : containsSub (sep.drop 1) sep = false) :
    rsplitBefore (p ++ sep) sep = p := by
  induction p with
  | nil =>
    cases sep with
    | nil => exact absurd rfl hsep
    | cons c t =>
      simp only [List.nil_append, rsplitBefore]
      simp only [List.drop_succ_cons, List.drop_zero] at hbase
      rw [hbase]
      simp [startswith_self]
  | cons c cs ih =>
    have h := containsSub_append_right cs sep
    simp only [List.cons_append, rsplitBefore]
    rw [show cs.append sep = cs ++ sep from rfl, h]
    simp [ih]

theorem length_dropWhile_le (p : α → Bool) (l : List α) :
    (l.dropWhile p).length ≤ l.length := by
  induction l with
  | nil => exact Nat.le_refl _
  | cons c t ih =>
    rw [List.dropWhile_cons]
    by_cases hc : p c
    · rw [if_pos hc]
      exact Nat.le_trans ih (Nat.le_succ _)
    · rw [if_neg hc]

theorem dropWhile_eq_self_of_length (p : α → Bool) (l : List α)
    (h : (l.dropWhile p).length = l.length) : l.dropWhile p = l := by
  induction l with
  | nil => rfl
  | cons c t ih =>
    by_cases hc : p c
    · rw [List.dropWhile_cons, if_pos hc] at h ⊢
      rw [List.length_cons] at h
      have := length_dropWhile_le p t
      omega
    · rw [List.dropWhile_cons, if_neg hc]

theorem pyLstrip_length_le (s : PyStr) : (pyLstrip s).length ≤ s.length :=
  length_dropWhile_le _ _

theorem pyRstrip_length_le (s : PyStr) : (pyRstrip s).length ≤ s.length := by
  unfold pyRstrip
  rw [List.length_reverse]
  calc (s.reverse.dropWhile isPySpace).length ≤ s.reverse.length := length_dropWhile_le _ _
    _ = s.length := List.length_reverse s

theorem pyLstrip_eq_self_of_strip (s : PyStr) (h : pyStrip s = s) : pyLstrip s = s := by
  have h1 : s.length ≤ (pyLstrip s).length := by
    have := congrArg List.length h
    unfold pyStrip at this
    have h2 := pyRstrip_length_le (pyLstrip s)
    omega
  exact dropWhile_eq_self_of_length _ _ (Nat.le_antisymm (pyLstrip_length_le s) h1)

theorem pyRstrip_eq_self_of_strip (s : PyStr) (h : pyStrip s = s) : pyRstrip s = s := by
  unfold pyStrip at h
  rw [pyLstrip_eq_self_of_strip s h] at h
  exact h

theorem pyLstrip_cons_of_not_space (c : Char) (t : PyStr) (hc : isPySpace c = false) :
    pyLstrip (c :: t) = c :: t := by
  simp [pyLstrip, List.dropWhile_cons, hc]

theorem pyRstrip_append_of_not_space (x : PyStr) (c : Char) (hc : isPySpace c = false) :
    pyRstrip (x ++ [c]) = x ++ [c] := by
  unfold pyRstrip
  rw [List.reverse_append]
  simp [List.dropWhile_cons, hc]

theorem head_not_space_of_strip (c : Char) (t : PyStr) (h : pyStrip (c :: t) = c :: t) :
    isPySpace c = false := by
  have h1 := pyLstrip_eq_self_of_strip _ h
  by_contra hc
  rw [Bool.not_eq_false] at hc
  rw [pyLstrip, List.dropWhile_cons, if_pos hc] at h1
  have h3 : (List.dropWhile isPySpace t).length = t.length + 1 := by rw [h1]; simp
  have h2 := length_dropWhile_le isPySpace t
  omega

theorem last_not_space_of_strip (x : PyStr) (c : Char) (h : pyStrip (x ++ [c]) = x ++ [c]) :
    isPySpace c = false := by
  have h1 := pyRstrip_eq_self_of_strip _ h
  by_contra hc
  rw [Bool.not_eq_false] at hc
  unfold pyRstrip at h1
  rw [List.reverse_append, List.reverse_singleton, List.singleton_append,
      List.dropWhile_cons, if_pos hc] at h1
  have h3 : (List.dropWhile isPySpace x.reverse).length = x.length + 1 := by
    have := congrArg List.length h1
    simpa using this
  have h2 : (List.dropWhile isPySpace x.reverse).length ≤ x.length := by
    have := length_dropWhile_le isPySpace x.reverse
    simpa using this
  omega

theorem pyStrip_of_ends (c d : Char) (mid : PyStr)
    (hc : isPySpace c = false) (hd : isPySpace d = false) :
    pyStrip (c :: mid ++ [d]) = c :: mid ++ [d] := by
  unfold pyStrip
  rw [show c :: mid ++ [d] = c :: (mid ++ [d]) from rfl,
      pyLstrip_cons_of_not_space c _ hc,
      show c :: (mid ++ [d]) = (c :: mid) ++ [d] from rfl,
      pyRstrip_append_of_not_space _ d hd]

theorem pyLstrip_spaces_append (k : Nat) (s : PyStr) :
    pyLstrip (spaces k ++ s) = pyLstrip s := by
  induction k with
  | zero => rfl
  | succ n ih =>
    rw [spaces, List.replicate_succ, List.cons_append, pyLstrip, List.dropWhile_cons,
      if_pos (show isPySpace ' ' = true from rfl)]
    exact ih

theorem pyStrip_spaces_append (k : Nat) (s : PyStr) :
    pyStrip (spaces k ++ s) = pyStrip s := by
  unfold pyStrip
  rw [pyLstrip_spaces_append]

/-! ## Lemmas about splitlines, unlines and joins -/

theorem pySplitlines_cons_of_not_break (c : Char) (rest : PyStr) (hc : isLineBreak c = false) :
    pySplitlines (c :: rest) = consFirstLine c (pySplitlines rest) := by
  simp [pySplitlines, hc]

theorem pySplitlines_clean_cons (l : PyStr) (hl : lineClean l = true) (s : PyStr) :
    pySplitlines (l ++ '\n' :: s) = l :: pySplitlines s := by
  induction l with
  | nil => simp [pySplitlines, isLineBreak]
  | cons c cs ih =>
    simp only [lineClean, List.all_cons, Bool.and_eq_true, Bool.not_eq_true'] at hl
    obtain ⟨hc, hcs⟩ := hl
    rw [List.cons_append, pySplitlines_cons_of_not_break c _ hc, ih hcs]
    rfl

theorem unlines_nil : unlines [] = [] := rfl

theorem unlines_cons (l : PyStr) (ls : List PyStr) :
    unlines (l :: ls) = l ++ '\n' :: unlines ls := rfl

theorem unlines_append (a b : List PyStr) : unlines (a ++ b) = unlines a ++ unlines b := by
  induction a with
  | nil => rfl
  | cons l ls ih => simp [unlines_cons, ih]

theorem pySplitlines_unlines (ls : List PyStr) (h : ∀ l ∈ ls, lineClean l = true) :
    pySplitlines (unlines ls) = ls := by
  induction ls with
  | nil => rfl
  | cons l ls ih =>
    rw [unlines_cons, pySplitlines_clean_cons l (h l (by simp)),
        ih (fun x hx => h x (by simp [hx]))]

theorem lineClean_of_mem_pySplitlines (s : PyStr) :
    ∀ l ∈ pySplitlines s, lineClean l = true := by
  induction s with
  | nil => intro l hl; simp [pySplitlines] at hl
  | cons c rest ih =>
    intro l hl
    by_cases hb : isLineBreak c
    · rw [pySplitlines] at hl
      rw [if_pos hb] at hl
      by_cases hcr : (c = '\r' && headIsLF rest) = true
      · rw [if_pos hcr] at hl
        exact ih l hl
      · rw [if_neg hcr] at hl
        rcases List.mem_cons.mp hl with h | h
        · subst h; rfl
        · exact ih l h
    · rw [pySplitlines_cons_of_not_break c rest (by simpa using hb)] at hl
      cases hrec : pySplitlines rest with
      | nil =>
        rw [hrec] at hl
        simp only [consFirstLine, List.mem_singleton] at hl
        subst hl
        simp [lineClean, hb]
      | cons l0 ls0 =>
        rw [hrec] at hl
        simp only [consFirstLine, List.mem_cons] at hl
        rcases hl with h | h
        · subst h
          have h0 : lineClean l0 = true := ih l0 (by rw [hrec]; simp)
          simp only [lineClean, List.all_cons, Bool.and_eq_true, Bool.not_eq_true']
          exact ⟨by simpa using hb, by simpa [lineClean] using h0⟩
        · exact ih l (by rw [hrec]; simp [h])

theorem joinNL_cons (l : PyStr) (ls : List PyStr) :
    joinNL (l :: ls) = l ++ (if ls.isEmpty then [] else '\n' :: joinNL ls) := by
  cases ls <;> simp [joinNL]

theorem unlines_eq_joinNL (ls : List PyStr) (h : ls ≠ []) :
    unlines ls = joinNL ls ++ ['\n'] := by
  induction ls with
  | nil => exact absurd rfl h
  | cons l ls ih =>
    cases ls with
    | nil => rfl
    | cons l2 ls2 =>
      rw [unlines_cons, ih (by simp), joinNL]
      simp

theorem getLast?_ne_nl_of_lineClean (l : PyStr) (c : Char)
    (hl : lineClean l = true) (hc : l.getLast? = some c) : c ≠ '\n' := by
  intro heq
  subst heq
  obtain ⟨hne, hval⟩ := List.mem_getLast?_eq_getLast (Option.mem_def.mpr hc)
  have hmem : '\n' ∈ l := hval ▸ List.getLast_mem hne
  have := List.all_eq_true.mp hl _ hmem
  simp [isLineBreak] at this

theorem endswith_nl_eq (s : PyStr) : endswith s ['\n'] = (s.getLast? == some '\n') := by
  unfold endswith
  cases hr : s.reverse with
  | nil =>
    have hs : s = [] := by simpa using congrArg List.reverse hr
    subst hs
    rfl
  | cons d t =>
    have hs : s.getLast? = some d := by
      rw [← List.head?_reverse, hr]
      rfl
    rw [hs]
    show startswith (d :: t) ['\n'] = _
    simp only [startswith, startswith_nil_pre]
    by_cases hd : d = '\n'
    · subst hd; simp
    · simp [Ne.symm hd, hd]

theorem endswith_nl_of_joinNL (ls : List PyStr)
    (h1 : ∀ l ∈ ls, lineClean l = true) (h2 : ls.getLast? ≠ some []) :
    endswith (joinNL ls) ['\n'] = false := by
  induction ls with
  | nil => rfl
  | cons l ls ih =>
    cases ls with
    | nil =>
      have hl : l ≠ [] := by
        intro hc; exact h2 (by rw [hc]; rfl)
      rw [show joinNL [l] = l from rfl, endswith_nl_eq]
      cases hc : l.getLast? with
      | none => simp
      | some c =>
        have := getLast?_ne_nl_of_lineClean l c (h1 l (by simp)) hc
        simp [this]
    | cons l2 ls2 =>
      have htail : joinNL (l2 :: ls2) ≠ [] ∨ (l2 = [] ∧ ls2 = []) := by
        cases ls2 with
        | nil =>
          by_cases h : l2 = []
          · exact Or.inr ⟨h, rfl⟩
          · exact Or.inl (by simpa [joinNL] using h)
        | cons l3 ls3 => exact Or.inl (by simp [joinNL])
      rcases htail with htail | ⟨he1, he2⟩
      · rw [joinNL, endswith_nl_eq,
            List.getLast?_append_cons l '\n' (joinNL (l2 :: ls2)),
            show ('\n' :: joinNL (l2 :: ls2)) = ['\n'] ++ joinNL (l2 :: ls2) from rfl,
            List.getLast?_append_of_ne_nil _ htail]
        have ihh := ih (fun x hx => h1 x (by simp [hx]))
          (by rw [List.getLast?_cons_cons] at h2; exact h2)
        rw [endswith_nl_eq] at ihh
        exact ihh
      · subst he1; subst he2
        rw [List.getLast?_cons_cons] at h2
        simp at h2
  
theorem unlines_ne_nil_endswith_nl (ls : List PyStr) (h : ls ≠ []) :
    endswith (unlines ls) ['\n'] = true := by
  rw [unlines_eq_joinNL ls h]
  exact endswith_append_left _ _

/-! ## Lemmas about the stable sort -/

theorem insertStable_perm (lt : α → α → Bool) (x : α) (l : List α) :
    (insertStable lt x l).Perm (x :: l) := by
  induction l with
  | nil => exact List.Perm.refl _
  | cons y ys ih =>
    rw [insertStable]
    by_cases h : lt y x
    · rw [if_pos h]
      exact (ih.cons y).trans (List.Perm.swap x y ys)
    · rw [if_neg h]

theorem pySorted_perm (lt : α → α → Bool) (l : List α) : (pySorted lt l).Perm l := by
  induction l with
  | nil => exact List.Perm.refl _
  | cons x xs ih => exact (insertStable_perm lt x (pySorted lt xs)).trans (ih.cons x)

theorem mem_pySorted (lt : α → α → Bool) (l : List α) (a : α) :
    a ∈ pySorted lt l ↔ a ∈ l :=
  (pySorted_perm lt l).mem_iff

theorem subWalk_consDir (excl : List PyStr) (n : PyStr) (sub rest : Tree) :
    subWalk excl (.consDir n sub rest) =
      if is_excluded n excl then subWalk excl rest
      else (n, walkDir excl sub) :: subWalk excl rest := rfl


/-! ## Lemmas about the walk -/

theorem is_excluded_nil (n : PyStr) : is_excluded n [] = false := rfl

theorem filter_excl_nil (l : List (PyStr × Content)) :
    l.filter (fun p => !is_excluded p.1 []) = l :=
  List.filter_eq_self.mpr (fun _ _ => rfl)

theorem walkDir_perm_raw (excl : List PyStr) (t : Tree) :
    (walkDir excl t).Perm
      (((filesOf t).filter (fun p => !is_excluded p.1 excl)) ++
       (subWalk excl t).flatMap (fun p => p.2.map (fun q => (p.1 ++ '/' :: q.1, q.2)))) :=
  (pySorted_perm _ _).append ((pySorted_perm _ _).flatMap_right _)

theorem subWalk_consDir_nil (n : PyStr) (sub rest : Tree) :
    subWalk [] (.consDir n sub rest) = (n, walkDir [] sub) :: subWalk [] rest := by
  rw [subWalk_consDir]
  simp [is_excluded_nil]

theorem walkDir_perm_allFiles (t : Tree) : (walkDir [] t).Perm (allFiles t) := by
  induction t with
  | nilDir => simp [walkDir, subWalk, filesOf, allFiles, pySorted]
  | consFile n c rest ih =>
    refine (walkDir_perm_raw [] _).trans ?_
    rw [filter_excl_nil]
    show (((n, c) :: filesOf rest) ++
        (subWalk [] rest).flatMap (fun p => p.2.map (fun q => (p.1 ++ '/' :: q.1, q.2)))).Perm
      ((n, c) :: allFiles rest)
    rw [List.cons_append]
    refine List.Perm.cons _ ?_
    have hraw := (walkDir_perm_raw [] rest).symm
    rw [filter_excl_nil] at hraw
    exact hraw.trans ih
  | consDir n sub rest ihsub ihrest =>
    refine (walkDir_perm_raw [] _).trans ?_
    rw [filter_excl_nil]
    show (filesOf rest ++
        (subWalk [] (.consDir n sub rest)).flatMap
          (fun p => p.2.map (fun q => (p.1 ++ '/' :: q.1, q.2)))).Perm
      ((allFiles sub).map (fun q => (n ++ '/' :: q.1, q.2)) ++ allFiles rest)
    rw [subWalk_consDir_nil, List.flatMap_cons]
    refine (List.perm_append_comm_assoc _ _ _).trans ?_
    refine List.Perm.append (ihsub.map _) ?_
    have hraw := (walkDir_perm_raw [] rest).symm
    rw [filter_excl_nil] at hraw
    exact hraw.trans ihrest

/-! ## Membership characterizations for the walk and well-formedness -/

theorem mem_walkDir_cases (excl : List PyStr) (t : Tree) (pc : PyStr × Content)
    (h : pc ∈ walkDir excl t) :
    pc ∈ (filesOf t).filter (fun p => !is_excluded p.1 excl) ∨
    ∃ pr ∈ subWalk excl t, ∃ q ∈ pr.2, pc = (pr.1 ++ '/' :: q.1, q.2) := by
  unfold walkDir at h
  rcases List.mem_append.mp h with h | h
  · exact Or.inl ((mem_pySorted _ _ _).mp h)
  · right
    rcases List.mem_flatMap.mp h with ⟨pr, hpr, hq⟩
    rcases List.mem_map.mp hq with ⟨q, hq2, hq3⟩
    exact ⟨pr, (mem_pySorted _ _ _).mp hpr, q, hq2, hq3.symm⟩

theorem mem_walkDir_of_file (excl : List PyStr) (t : Tree) (pc : PyStr × Content)
    (h : pc ∈ (filesOf t).filter (fun p => !is_excluded p.1 excl)) :
    pc ∈ walkDir excl t := by
  unfold walkDir
  exact List.mem_append.mpr (Or.inl ((mem_pySorted _ _ _).mpr h))

theorem mem_walkDir_of_subWalk (excl : List PyStr) (t : Tree)
    (pr : PyStr × List (PyStr × Content)) (q : PyStr × Content)
    (hpr : pr ∈ subWalk excl t) (hq : q ∈ pr.2) :
    (pr.1 ++ '/' :: q.1, q.2) ∈ walkDir excl t := by
  unfold walkDir
  refine List.mem_append.mpr (Or.inr ?_)
  exact List.mem_flatMap.mpr ⟨pr, (mem_pySorted _ _ _).mpr hpr, List.mem_map.mpr ⟨q, hq, rfl⟩⟩

theorem treeOK_consFile (n : PyStr) (c : Content) (rest : Tree)
    (h : treeOK (.consFile n c rest) = true) :
    nameOK n = true ∧ contentOKc c = true ∧ treeOK rest = true := by
  rw [treeOK] at h
  simp only [Bool.and_eq_true] at h
  exact ⟨h.1.1, h.1.2, h.2⟩

theorem treeOK_consDir (n : PyStr) (sub rest : Tree)
    (h : treeOK (.consDir n sub rest) = true) :
    nameOK n = true ∧ treeOK sub = true ∧ treeOK rest = true := by
  rw [treeOK] at h
  simp only [Bool.and_eq_true] at h
  exact ⟨h.1.1, h.1.2, h.2⟩

theorem filesOf_OK (t : Tree) (ht : treeOK t = true) :
    ∀ pc ∈ filesOf t, nameOK pc.1 = true ∧ contentOKc pc.2 = true := by
  induction t with
  | nilDir => intro pc h; simp [filesOf] at h
  | consFile n c rest ih =>
    intro pc h
    obtain ⟨h1, h2, h3⟩ := treeOK_consFile n c rest ht
    rcases List.mem_cons.mp h with h | h
    · subst h; exact ⟨h1, h2⟩
    · exact ih h3 pc h
  | consDir n sub rest ihsub ihrest =>
    intro pc h
    obtain ⟨_, _, h3⟩ := treeOK_consDir n sub rest ht
    exact ihrest h3 pc h

theorem nameOK_iff (n : PyStr) :
    nameOK n = true ↔
      (n ≠ [] ∧ pyStrip n = n ∧
       (∀ c ∈ n, isLineBreak c = false ∧ c ≠ '/' ∧ c ≠ '\\') ∧
       n ≠ SECTION_HEADER) := by
  simp [nameOK, List.all_eq_true, List.isEmpty_iff, and_assoc, Bool.not_eq_true']

theorem pathOK_iff (p : PyStr) :
    pathOK p = true ↔
      (p ≠ [] ∧ pyStrip p = p ∧ (∀ c ∈ p, isLineBreak c = false ∧ c ≠ '\\')) := by
  simp [pathOK, List.all_eq_true, List.isEmpty_iff, and_assoc, Bool.not_eq_true']

theorem pathOK_of_nameOK (n : PyStr) (h : nameOK n = true) : pathOK n = true := by
  obtain ⟨h1, h2, h3, _⟩ := (nameOK_iff n).mp h
  exact (pathOK_iff n).mpr ⟨h1, h2, fun c hc => ⟨(h3 c hc).1, (h3 c hc).2.2⟩⟩

theorem pathOK_slash (n p : PyStr) (hn : nameOK n = true) (hp : pathOK p = true) :
    pathOK (n ++ '/' :: p) = true := by
  obtain ⟨hn1, hn2, hn3, _⟩ := (nameOK_iff n).mp hn
  obtain ⟨hp1, hp2, hp3⟩ := (pathOK_iff p).mp hp
  obtain ⟨c, t, rfl⟩ : ∃ c t, n = c :: t := by
    cases n with
    | nil => exact absurd rfl hn1
    | cons c t => exact ⟨c, t, rfl⟩
  have hd : p.dropLast ++ [p.getLast hp1] = p := List.dropLast_append_getLast hp1
  have hcs : isPySpace c = false := head_not_space_of_strip c t hn2
  have hds : isPySpace (p.getLast hp1) = false := by
    apply last_not_space_of_strip p.dropLast
    rw [hd]; exact hp2
  refine (pathOK_iff _).mpr ⟨by simp, ?_, ?_⟩
  · have halg : (c :: t) ++ '/' :: p = c :: ((t ++ '/' :: p.dropLast) ++ [p.getLast hp1]) := by
      have h5 : (t ++ '/' :: p.dropLast) ++ [p.getLast hp1] =
          t ++ '/' :: (p.dropLast ++ [p.getLast hp1]) := by simp
      rw [h5, hd]
      rfl
    rw [halg]
    exact pyStrip_of_ends c (p.getLast hp1) (t ++ '/' :: p.dropLast) hcs hds
  · intro d hd2
    rcases List.mem_append.mp hd2 with h | h
    · exact ⟨(hn3 d h).1, (hn3 d h).2.2⟩
    · rcases List.mem_cons.mp h with h | h
      · subst h; exact ⟨by decide, by decide⟩
      · exact hp3 d h

theorem walkDir_OK (excl : List PyStr) (t : Tree) (ht : treeOK t = true) :
    ∀ pc ∈ walkDir excl t, pathOK pc.1 = true ∧ contentOKc pc.2 = true := by
  induction t with
  | nilDir =>
    intro pc h
    simp [walkDir, subWalk, filesOf, pySorted] at h
  | consFile n c rest ih =>
    intro pc h
    obtain ⟨hn, hc, hrest⟩ := treeOK_consFile n c rest ht
    rcases mem_walkDir_cases excl _ pc h with h | ⟨pr, hpr, q, hq, rfl⟩
    · rcases List.mem_filter.mp h with ⟨hmem, hkeep⟩
      rcases List.mem_cons.mp hmem with h | h
      · subst h; exact ⟨pathOK_of_nameOK n hn, hc⟩
      · exact ih hrest pc (mem_walkDir_of_file excl rest pc (List.mem_filter.mpr ⟨h, hkeep⟩))
    · have hpr2 : pr ∈ subWalk excl rest := hpr
      exact ih hrest _ (mem_walkDir_of_subWalk excl rest pr q hpr2 hq)
  | consDir n sub rest ihsub ihrest =>
    intro pc h
    obtain ⟨hn, hsub, hrest⟩ := treeOK_consDir n sub rest ht
    rcases mem_walkDir_cases excl _ pc h with h | ⟨pr, hpr, q, hq, rfl⟩
    · rcases List.mem_filter.mp h with ⟨hmem, hkeep⟩
      exact ihrest hrest pc (mem_walkDir_of_file excl rest pc (List.mem_filter.mpr ⟨hmem, hkeep⟩))
    · rw [subWalk_consDir] at hpr
      by_cases he : is_excluded n excl
      · rw [if_pos he] at hpr
        exact ihrest hrest _ (mem_walkDir_of_subWalk excl rest pr q hpr hq)
      · rw [if_neg he] at hpr
        rcases List.mem_cons.mp hpr with h2 | h2
        · subst h2
          have hqok := ihsub hsub q hq
          exact ⟨pathOK_slash n q.1 hn hqok.1, hqok.2⟩
        · exact ihrest hrest _ (mem_walkDir_of_subWalk excl rest pr q h2 hq)

/-! ## Exclusion correctness lemmas (C2) -/

theorem joinSlash_cons (n : PyStr) (comps : List PyStr) (h : comps ≠ []) :
    joinSlash (n :: comps) = n ++ '/' :: joinSlash comps := by
  cases comps with
  | nil => exact absurd rfl h
  | cons m ms => rfl

theorem filter_self_filter {α : Type} (p : α → Bool) (l : List α) :
    (l.filter p).filter p = l.filter p := by
  induction l with
  | nil => rfl
  | cons a l ih =>
    rw [List.filter_cons]
    by_cases h : p a
    · rw [if_pos h, List.filter_cons, if_pos h, ih]
    · rw [if_neg h, ih]

theorem filesOf_prune (excl : List PyStr) (t : Tree) :
    filesOf (pruneTree excl t) =
      (filesOf t).filter (fun p => !is_excluded p.1 excl) := by
  induction t with
  | nilDir => rfl
  | consFile n c rest ih =>
    rw [pruneTree]
    by_cases he : is_excluded n excl
    · rw [if_pos he, ih, filesOf, List.filter_cons]
      simp [he]
    · rw [if_neg he, filesOf, ih]
      rw [show filesOf (.consFile n c rest) = (n, c) :: filesOf rest from rfl,
        List.filter_cons]
      simp [he]
  | consDir n sub rest ihsub ihrest =>
    rw [pruneTree]
    by_cases he : is_excluded n excl
    · rw [if_pos he, ihrest]; rfl
    · rw [if_neg he, filesOf, ihrest]; rfl

theorem subWalk_prune (excl : List PyStr) (t : Tree) :
    subWalk excl (pruneTree excl t) = subWalk excl t := by
  induction t with
  | nilDir => rfl
  | consFile n c rest ih =>
    rw [pruneTree]
    by_cases he : is_excluded n excl
    · rw [if_pos he]; exact ih
    · rw [if_neg he]; exact ih
  | consDir n sub rest ihsub ihrest =>
    rw [pruneTree]
    by_cases he : is_excluded n excl
    · rw [if_pos he, subWalk_consDir, if_pos he]; exact ihrest
    · rw [if_neg he, subWalk_consDir, if_neg he, subWalk_consDir, if_neg he]
      rw [walkDir, walkDir, filesOf_prune, filter_self_filter, ihsub, ihrest]

theorem walkDir_prune (excl : List PyStr) (t : Tree) :
    walkDir excl (pruneTree excl t) = walkDir excl t := by
  rw [walkDir, walkDir, filesOf_prune, filter_self_filter, subWalk_prune]

theorem fileNamesOf_prune (excl : List PyStr) (t : Tree) :
    fileNamesOf (pruneTree excl t) =
      (fileNamesOf t).filter (fun f => !is_excluded f excl) := by
  rw [fileNamesOf, fileNamesOf, filesOf_prune]
  induction filesOf t with
  | nil => rfl
  | cons p ps ih =>
    rw [List.filter_cons, List.map_cons, List.filter_cons]
    by_cases he : is_excluded p.1 excl
    · simp [he, ih]
    · simp [he, ih]

theorem subDirBlocks_prune (excl : List PyStr) (t : Tree) :
    ∀ lvl : Nat, subDirBlocks excl (pruneTree excl t) lvl = subDirBlocks excl t lvl := by
  induction t with
  | nilDir => intro lvl; rfl
  | consFile n c rest ih =>
    intro lvl
    rw [pruneTree]
    by_cases he : is_excluded n excl
    · rw [if_pos he]; exact ih lvl
    · rw [if_neg he]; exact ih lvl
  | consDir n sub rest ihsub ihrest =>
    intro lvl
    rw [pruneTree]
    by_cases he : is_excluded n excl
    · rw [if_pos he, subDirBlocks, if_pos he]; exact ihrest lvl
    · rw [if_neg he, subDirBlocks, if_neg he, subDirBlocks, if_neg he]
      rw [fileNamesOf_prune, filter_self_filter, ihsub, ihrest]

theorem treeListLines_prune (rootDisplay : PyStr) (excl : List PyStr) (t : Tree) :
    treeListLines rootDisplay excl (pruneTree excl t) =
      treeListLines rootDisplay excl t := by
  rw [treeListLines, treeListLines, fileNamesOf_prune, filter_self_filter,
    subDirBlocks_prune]

theorem splitSlash_singleton (n : PyStr) (h : slashFree n = true) :
    splitSlash n = [n] := by
  induction n with
  | nil => rfl
  | cons c rest ih =>
    simp only [slashFree, List.all_cons, Bool.and_eq_true, decide_eq_true_eq] at h
    rw [splitSlash, if_neg h.1, ih h.2]
    rfl

theorem splitSlash_append (n s : PyStr) (h : slashFree n = true) :
    splitSlash (n ++ '/' :: s) = n :: splitSlash s := by
  induction n with
  | nil => rw [List.nil_append, splitSlash, if_pos rfl]
  | cons c rest ih =>
    simp only [slashFree, List.all_cons, Bool.and_eq_true, decide_eq_true_eq] at h
    rw [List.cons_append, splitSlash, if_neg h.1, ih h.2]
    rfl

theorem splitSlash_joinSlash (comps : List PyStr) (h1 : comps ≠ [])
    (h2 : ∀ m ∈ comps, slashFree m = true) :
    splitSlash (joinSlash comps) = comps := by
  induction comps with
  | nil => exact absurd rfl h1
  | cons n ns ih =>
    cases ns with
    | nil => exact splitSlash_singleton n (h2 n (by simp))
    | cons n2 ns2 =>
      rw [joinSlash_cons n (n2 :: ns2) (by simp),
        splitSlash_append n _ (h2 n (by simp)),
        ih (by simp) (fun m hm => h2 m (by simp [hm]))]

theorem namesSlashFree_consFile (n : PyStr) (c : Content) (rest : Tree)
    (h : namesSlashFree (.consFile n c rest) = true) :
    slashFree n = true ∧ namesSlashFree rest = true := by
  simpa [namesSlashFree, Bool.and_eq_true] using h

theorem namesSlashFree_consDir (n : PyStr) (sub rest : Tree)
    (h : namesSlashFree (.consDir n sub rest) = true) :
    slashFree n = true ∧ namesSlashFree sub = true ∧ namesSlashFree rest = true := by
  simpa [namesSlashFree, Bool.and_eq_true, and_assoc] using h

theorem walkDir_components (excl : List PyStr) (t : Tree)
    (ht : namesSlashFree t = true) :
    ∀ pc ∈ walkDir excl t, ∃ comps : List PyStr, comps ≠ [] ∧
      pc.1 = joinSlash comps ∧ (∀ m ∈ comps, slashFree m = true) ∧
      ∀ m ∈ comps, is_excluded m excl = false := by
  induction t with
  | nilDir => intro pc h; simp [walkDir, subWalk, filesOf, pySorted] at h
  | consFile n c rest ih =>
    intro pc h
    obtain ⟨hn, hrest⟩ := namesSlashFree_consFile n c rest ht
    rcases mem_walkDir_cases excl _ pc h with h | ⟨pr, hpr, q, hq, rfl⟩
    · rcases List.mem_filter.mp h with ⟨hmem, hkeep⟩
      rcases List.mem_cons.mp hmem with h | h
      · subst h
        refine ⟨[n], by simp, rfl, ?_, ?_⟩
        · intro m hm
          rw [List.mem_singleton.mp hm]
          exact hn
        · intro m hm
          rw [List.mem_singleton.mp hm]
          simpa using hkeep
      · exact ih hrest pc (mem_walkDir_of_file _ _ _ (List.mem_filter.mpr ⟨h, hkeep⟩))
    · exact ih hrest _ (mem_walkDir_of_subWalk _ _ pr q hpr hq)
  | consDir n sub rest ihsub ihrest =>
    intro pc h
    obtain ⟨hn, hsub, hrest⟩ := namesSlashFree_consDir n sub rest ht
    rcases mem_walkDir_cases excl _ pc h with h | ⟨pr, hpr, q, hq, rfl⟩
    · rcases List.mem_filter.mp h with ⟨hmem, hkeep⟩
      exact ihrest hrest pc (mem_walkDir_of_file _ _ _ (List.mem_filter.mpr ⟨hmem, hkeep⟩))
    · rw [subWalk_consDir] at hpr
      by_cases he : is_excluded n excl
      · rw [if_pos he] at hpr
        exact ihrest hrest _ (mem_walkDir_of_subWalk _ _ pr q hpr hq)
      · rw [if_neg he] at hpr
        rcases List.mem_cons.mp hpr with h2 | h2
        · subst h2
          rcases ihsub hsub q hq with ⟨comps, hc1, hc2, hcsf, hc3⟩
          refine ⟨n :: comps, by simp, ?_, ?_, ?_⟩
          · rw [joinSlash_cons n comps hc1]
            simpa using hc2
          · intro m hm
            rcases List.mem_cons.mp hm with h3 | h3
            · subst h3; exact hn
            · exact hcsf m h3
          · intro m hm
            rcases List.mem_cons.mp hm with h3 | h3
            · subst h3; simpa using he
            · exact hc3 m h3
        · exact ihrest hrest _ (mem_walkDir_of_subWalk _ _ pr q h2 hq)

theorem subDirBlocks_shape (excl : List PyStr) (t : Tree) :
    ∀ (lvl : Nat), ∀ pr ∈ subDirBlocks excl t lvl, ∀ l ∈ pr.2,
      ∃ m k, is_excluded m excl = false ∧
        (l = spaces k ++ m ++ ['/'] ∨ l = spaces k ++ m) := by
  induction t with
  | nilDir => intro lvl pr h; simp [subDirBlocks] at h
  | consFile n c rest ih =>
    intro lvl pr h
    exact ih lvl pr h
  | consDir n sub rest ihsub ihrest =>
    intro lvl pr h
    rw [subDirBlocks] at h
    by_cases he : is_excluded n excl
    · rw [if_pos he] at h
      exact ihrest lvl pr h
    · rw [if_neg he] at h
      rcases List.mem_cons.mp h with h2 | h2
      · subst h2
        intro l hl
        rcases List.mem_cons.mp hl with hl | hl
        · exact ⟨n, 4 * lvl, by simpa using he, Or.inl (by simpa using hl)⟩
        rcases List.mem_append.mp hl with hl | hl
        · rcases List.mem_map.mp hl with ⟨f, hf, rfl⟩
          have hf2 := (mem_pySorted _ _ _).mp hf
          rcases List.mem_filter.mp hf2 with ⟨_, hkeep⟩
          exact ⟨f, 4 * (lvl + 1), by simpa using hkeep, Or.inr rfl⟩
        · rcases List.mem_flatMap.mp hl with ⟨pr2, hpr2, hl2⟩
          exact ihsub (lvl + 1) pr2 ((mem_pySorted _ _ _).mp hpr2) l hl2
      · exact ihrest lvl pr h2

theorem treeList_shape (rootDisplay : PyStr) (excl : List PyStr) (t : Tree) :
    ∀ l ∈ treeListLines rootDisplay excl t, l = rootDisplay ∨
      ∃ m k, is_excluded m excl = false ∧
        (l = spaces k ++ m ++ ['/'] ∨ l = spaces k ++ m) := by
  intro l hl
  rw [treeListLines] at hl
  rcases List.mem_cons.mp hl with hl | hl
  · exact Or.inl hl
  · right
    rcases List.mem_append.mp hl with hl | hl
    · rcases List.mem_map.mp hl with ⟨f, hf, rfl⟩
      rcases List.mem_filter.mp ((mem_pySorted _ _ _).mp hf) with ⟨_, hkeep⟩
      exact ⟨f, 4, by simpa using hkeep, Or.inr rfl⟩
    · rcases List.mem_flatMap.mp hl with ⟨pr, hpr, hl2⟩
      exact subDirBlocks_shape excl t 1 pr ((mem_pySorted _ _ _).mp hpr) l hl2

/-! ## Cleanliness of the document lines -/

theorem lineClean_append (a b : PyStr) :
    lineClean (a ++ b) = (lineClean a && lineClean b) := by
  simp [lineClean, List.all_append]

theorem lineClean_spaces (k : Nat) : lineClean (spaces k) = true := by
  simp only [lineClean, spaces, List.all_eq_true]
  intro c hc
  rw [List.eq_of_mem_replicate hc]
  decide

theorem nameOK_lineClean (n : PyStr) (h : nameOK n = true) : lineClean n = true := by
  obtain ⟨_, _, h3, _⟩ := (nameOK_iff n).mp h
  simp only [lineClean, List.all_eq_true]
  intro c hc
  simpa using (h3 c hc).1

theorem pathOK_lineClean (p : PyStr) (h : pathOK p = true) : lineClean p = true := by
  obtain ⟨_, _, h3⟩ := (pathOK_iff p).mp h
  simp only [lineClean, List.all_eq_true]
  intro c hc
  simpa using (h3 c hc).1

theorem pyStrip_fileLine (k : Nat) (f : PyStr) (hf : nameOK f = true) :
    pyStrip (spaces k ++ f) = f := by
  rw [pyStrip_spaces_append]
  exact ((nameOK_iff f).mp hf).2.1

theorem fileLine_ne_section (k : Nat) (f : PyStr) (hf : nameOK f = true) :
    pyStrip (spaces k ++ f) ≠ SECTION_HEADER := by
  rw [pyStrip_fileLine k f hf]
  exact ((nameOK_iff f).mp hf).2.2.2

theorem dirLine_ne_section (k : Nat) (n : PyStr) (hn : nameOK n = true) :
    pyStrip (spaces k ++ n ++ ['/']) ≠ SECTION_HEADER := by
  obtain ⟨h1, h2, _, _⟩ := (nameOK_iff n).mp hn
  obtain ⟨c, t, rfl⟩ : ∃ c t, n = c :: t := by
    cases n with
    | nil => exact absurd rfl h1
    | cons c t => exact ⟨c, t, rfl⟩
  have hcs : isPySpace c = false := head_not_space_of_strip c t h2
  have hstrip : pyStrip (spaces k ++ (c :: t) ++ ['/']) = (c :: t) ++ ['/'] := by
    rw [List.append_assoc, pyStrip_spaces_append]
    exact pyStrip_of_ends c '/' t hcs (by decide)
  rw [hstrip]
  intro heq
  have := congrArg List.getLast? heq
  rw [List.getLast?_concat] at this
  have hsh : SECTION_HEADER.getLast? = some '-' := by decide
  rw [hsh] at this
  simp at this

theorem fileNamesOf_OK (t : Tree) (ht : treeOK t = true) :
    ∀ f ∈ fileNamesOf t, nameOK f = true := by
  intro f hf
  rcases List.mem_map.mp hf with ⟨pc, hpc, rfl⟩
  exact (filesOf_OK t ht pc hpc).1

theorem subDirBlocks_safe (excl : List PyStr) (t : Tree) (ht : treeOK t = true) :
    ∀ (lvl : Nat), ∀ pr ∈ subDirBlocks excl t lvl, ∀ l ∈ pr.2,
      lineClean l = true ∧ pyStrip l ≠ SECTION_HEADER := by
  induction t with
  | nilDir => intro lvl pr h; simp [subDirBlocks] at h
  | consFile n c rest ih =>
    intro lvl pr h
    exact ih (treeOK_consFile n c rest ht).2.2 lvl pr h
  | consDir n sub rest ihsub ihrest =>
    obtain ⟨hn, hsub, hrest⟩ := treeOK_consDir n sub rest ht
    intro lvl pr h
    rw [subDirBlocks] at h
    by_cases he : is_excluded n excl
    · rw [if_pos he] at h
      exact ihrest hrest lvl pr h
    · rw [if_neg he] at h
      rcases List.mem_cons.mp h with h2 | h2
      · subst h2
        intro l hl
        rcases List.mem_cons.mp hl with hl | hl
        · subst hl
          constructor
          · rw [show spaces (4 * lvl) ++ n ++ ['/'] = spaces (4 * lvl) ++ (n ++ ['/']) by simp,
              lineClean_append, lineClean_spaces, lineClean_append, nameOK_lineClean n hn]
            decide
          · exact dirLine_ne_section (4 * lvl) n hn
        rcases List.mem_append.mp hl with hl | hl
        · rcases List.mem_map.mp hl with ⟨f, hf, rfl⟩
          rcases List.mem_filter.mp ((mem_pySorted _ _ _).mp hf) with ⟨hf2, _⟩
          have hfok := fileNamesOf_OK sub hsub f hf2
          constructor
          · rw [lineClean_append, lineClean_spaces, nameOK_lineClean f hfok]
            rfl
          · exact fileLine_ne_section _ f hfok
        · rcases List.mem_flatMap.mp hl with ⟨pr2, hpr2, hl2⟩
          exact ihsub hsub (lvl + 1) pr2 ((mem_pySorted _ _ _).mp hpr2) l hl2
      · exact ihrest hrest lvl pr h2

theorem treeList_safe (rootDisplay : PyStr) (excl : List PyStr) (t : Tree)
    (ht : treeOK t = true) (hrd1 : lineClean rootDisplay = true)
    (hrd2 : pyStrip rootDisplay ≠ SECTION_HEADER) :
    ∀ l ∈ treeListLines rootDisplay excl t,
      lineClean l = true ∧ pyStrip l ≠ SECTION_HEADER := by
  intro l hl
  rw [treeListLines] at hl
  rcases List.mem_cons.mp hl with hl | hl
  · subst hl; exact ⟨hrd1, hrd2⟩
  rcases List.mem_append.mp hl with hl | hl
  · rcases List.mem_map.mp hl with ⟨f, hf, rfl⟩
    rcases List.mem_filter.mp ((mem_pySorted _ _ _).mp hf) with ⟨hf2, _⟩
    have hfok := fileNamesOf_OK t ht f hf2
    constructor
    · rw [lineClean_append, lineClean_spaces, nameOK_lineClean f hfok]
      rfl
    · exact fileLine_ne_section 4 f hfok
  · rcases List.mem_flatMap.mp hl with ⟨pr, hpr, hl2⟩
    exact subDirBlocks_safe excl t ht 1 pr ((mem_pySorted _ _ _).mp hpr) l hl2

/-! ## Scanner lemmas -/

theorem flushFile_idle (b : List PyStr) (ws : List (PyStr × PyStr)) (es : List PyStr) :
    flushFile ⟨none, b, ws, es⟩ = ⟨none, b, ws, es⟩ := rfl

theorem flushFile_open (p : PyStr) (b : List PyStr) (ws : List (PyStr × PyStr))
    (es : List PyStr) (hp : p.isEmpty = false) :
    flushFile ⟨some p, b, ws, es⟩ =
      ⟨none, b, ws ++ [(normalizeHeaderPath p, writtenContent b)], es⟩ := by
  unfold flushFile
  simp [hp]

theorem pathOK_not_empty (p : PyStr) (hp : pathOK p = true) : p.isEmpty = false := by
  have h1 := ((pathOK_iff p).mp hp).1
  simpa [List.isEmpty_iff] using h1

theorem startswith_take_eq (s pre : PyStr) (h : startswith s pre = true) :
    s.take pre.length = pre := by
  induction pre generalizing s with
  | nil => rfl
  | cons p ps ih =>
    cases s with
    | nil => simp [startswith] at h
    | cons c cs =>
      simp only [startswith, Bool.and_eq_true, decide_eq_true_eq] at h
      rw [List.length_cons, List.take_succ_cons, ih cs h.2, h.1]

theorem startswith_footer_not_header (x : PyStr) :
    startswith (FILE_FOOTER ++ x) FILE_HEADER = false := by
  by_contra hc
  rw [Bool.not_eq_false] at hc
  have h1 := startswith_take_eq _ _ hc
  rw [List.take_append_of_le_length (by decide)] at h1
  revert h1
  decide

theorem startswith_header_not_footer (l : PyStr) (h : startswith l FILE_HEADER = true) :
    startswith l FILE_FOOTER = false := by
  by_contra hc
  rw [Bool.not_eq_false] at hc
  have h1 := startswith_take_eq _ _ h
  have h2 := startswith_take_eq _ _ hc
  have h3 : l.take FILE_HEADER.length = (l.take FILE_FOOTER.length).take FILE_HEADER.length := by
    rw [List.take_take]
    rfl
  rw [h1, h2] at h3
  revert h3
  decide

theorem contentLineOK_parts (l : PyStr) (h : contentLineOK l = true) :
    lineClean l = true ∧ startswith l FILE_HEADER = false ∧
      startswith l FILE_FOOTER = false := by
  simp only [contentLineOK, Bool.and_eq_true, Bool.not_eq_true'] at h
  exact ⟨h.1.1, h.1.2, h.2⟩

theorem processLine_content (st : RevState) (l : PyStr) (h : contentLineOK l = true) :
    processLine st l =
      (match st.currentPath with
       | some p => if p.isEmpty then st else { st with buffer := st.buffer ++ [l] }
       | none => st) := by
  obtain ⟨_, h2, h3⟩ := contentLineOK_parts l h
  unfold processLine
  rw [h2, h3]
  simp

theorem processLine_content_open (p' : PyStr) (hp' : p'.isEmpty = false)
    (b : List PyStr) (ws : List (PyStr × PyStr)) (es : List PyStr) (l : PyStr)
    (h : contentLineOK l = true) :
    processLine ⟨some p', b, ws, es⟩ l = ⟨some p', b ++ [l], ws, es⟩ := by
  rw [processLine_content _ l h]
  simp [hp']

theorem processLine_headerLine (st : RevState) (p : PyStr) (hp : pathOK p = true) :
    processLine st (headerLine p) =
      { flushFile st with currentPath := some p, buffer := [] } := by
  have hstrip : pyStrip p = p := ((pathOK_iff p).mp hp).2.1
  have hsw : startswith (headerLine p) FILE_HEADER = true := by
    rw [show headerLine p = FILE_HEADER ++ (p ++ " ---".data) from rfl]
    exact startswith_append_left _ _
  have hrstrip : pyRstrip (headerLine p) = headerLine p := by
    rw [show headerLine p = (FILE_HEADER ++ (p ++ [' ', '-', '-'])) ++ ['-'] by
      simp [headerLine, FILE_HEADER]]
    exact pyRstrip_append_of_not_space _ '-' (by decide)
  have hends : endswith (headerLine p) " ---".data = true := by
    rw [show headerLine p = (FILE_HEADER ++ p) ++ " ---".data by simp [headerLine, FILE_HEADER]]
    exact endswith_append_left _ _
  have hdrop : (headerLine p).drop FILE_HEADER.length = p ++ " ---".data := by
    rw [show headerLine p = FILE_HEADER ++ (p ++ " ---".data) from rfl]
    exact List.drop_left _ _
  have hcontains : containsSub (p ++ " ---".data) " ---".data = true :=
    containsSub_append_right p _
  have hrsplit : rsplitBefore (p ++ " ---".data) " ---".data = p :=
    rsplitBefore_append_sep p _ (by decide) (by decide)
  unfold processLine
  simp only [hrstrip, hsw, hends, hdrop, hcontains, hrsplit, hstrip,
    Bool.and_self, if_true]

theorem processLine_footerLine (st : RevState) (p : PyStr) :
    processLine st (footerLine p) = { flushFile st with buffer := [] } := by
  have h1 : startswith (footerLine p) FILE_HEADER = false := by
    rw [show footerLine p = FILE_FOOTER ++ (p ++ " ---".data) from rfl]
    exact startswith_footer_not_header _
  have h2 : startswith (footerLine p) FILE_FOOTER = true := by
    rw [show footerLine p = FILE_FOOTER ++ (p ++ " ---".data) from rfl]
    exact startswith_append_left _ _
  unfold processLine
  rw [h1, h2]
  simp

theorem processLine_blank (st : RevState) (h : st.currentPath = none) :
    processLine st [] = st := by
  have h1 : startswith ([] : PyStr) FILE_HEADER = false := by decide
  have h2 : startswith ([] : PyStr) FILE_FOOTER = false := by decide
  unfold processLine
  rw [h1, h2]
  simp [h]

theorem foldl_contentLines (ls : List PyStr) (hls : ∀ l ∈ ls, contentLineOK l = true)
    (p' : PyStr) (hp' : p'.isEmpty = false) (b : List PyStr)
    (ws : List (PyStr × PyStr)) (es : List PyStr) :
    List.foldl processLine ⟨some p', b, ws, es⟩ ls = ⟨some p', b ++ ls, ws, es⟩ := by
  induction ls generalizing b with
  | nil => simp
  | cons l ls ih =>
    rw [List.foldl_cons, processLine_content_open p' hp' b ws es l (hls l (by simp))]
    rw [ih (fun x hx => hls x (by simp [hx]))]
    simp

theorem joinNL_ne_nil (ls : List PyStr) (h1 : ls ≠ [])
    (h2 : ls.getLast? ≠ some []) : joinNL ls ≠ [] := by
  cases ls with
  | nil => exact absurd rfl h1
  | cons l ls2 =>
    cases ls2 with
    | nil =>
      intro hc
      exact h2 (by rw [show joinNL [l] = l from rfl] at hc; rw [hc]; rfl)
    | cons l2 ls3 => simp [joinNL]

theorem contentOK_parts (s : PyStr) (h : contentOK s = true) :
    unlines (pySplitlines s) = s ∧
    (∀ l ∈ pySplitlines s, contentLineOK l = true) ∧
    (pySplitlines s).getLast? ≠ some [] := by
  simp only [contentOK, Bool.and_eq_true, beq_iff_eq, bne_iff_ne, ne_eq,
    List.all_eq_true] at h
  exact ⟨h.1.1, h.1.2, h.2⟩

theorem written_text (s : PyStr) (h : contentOK s = true) :
    writtenContent (pySplitlines s) = s := by
  obtain ⟨h1, h2, h3⟩ := contentOK_parts s h
  have hclean : ∀ l ∈ pySplitlines s, lineClean l = true :=
    fun l hl => (contentLineOK_parts l (h2 l hl)).1
  unfold writtenContent
  by_cases hbin : (joinNL (pySplitlines s) == "binary file".data &&
      (pySplitlines s).length == 1) = true
  · rw [if_pos hbin]
    simp only [Bool.and_eq_true, beq_iff_eq] at hbin
    obtain ⟨hj, hlen⟩ := hbin
    obtain ⟨x, hx⟩ := List.length_eq_one.mp (by exact_mod_cast hlen)
    rw [hx] at hj
    rw [show joinNL [x] = x from rfl] at hj
    subst hj
    rw [hx] at h1
    rw [← h1]
    rfl
  · rw [if_neg hbin]
    cases hnil : pySplitlines s with
    | nil =>
      rw [hnil] at h1
      have h1b : ([] : PyStr) = s := h1
      simp [← h1b, joinNL]
    | cons l ls2 =>
      rw [hnil] at h1 h3 hclean
      have hne : (l :: ls2) ≠ ([] : List PyStr) := by simp
      have hend : endswith (joinNL (l :: ls2)) ['\n'] = false :=
        endswith_nl_of_joinNL _ hclean h3
      have hjn : joinNL (l :: ls2) ≠ [] := joinNL_ne_nil _ hne h3
      rw [hend, show (joinNL (l :: ls2)).isEmpty = false from by
        simpa [List.isEmpty_iff] using hjn]
      simp only [Bool.not_false, Bool.and_self, if_true]
      rw [← unlines_eq_joinNL _ hne]
      exact h1

theorem map_eq_self_of_forall {α : Type} (l : List α) (f : α → α)
    (h : ∀ x ∈ l, f x = x) : l.map f = l := by
  induction l with
  | nil => rfl
  | cons x xs ih =>
    rw [List.map_cons, h x (by simp), ih (fun y hy => h y (by simp [hy]))]

theorem normalizeHeaderPath_OK (p : PyStr) (h : pathOK p = true) :
    normalizeHeaderPath p = p := by
  obtain ⟨_, _, h3⟩ := (pathOK_iff p).mp h
  unfold normalizeHeaderPath pyReplaceChar
  rw [map_eq_self_of_forall p _ (fun c _ => by by_cases hc : c = '/' <;> simp [hc])]
  rw [map_eq_self_of_forall p _ (fun c hc => by simp [(h3 c hc).2])]

theorem contentLinesOf_OK (c : Content) (hc : contentOKc c = true) :
    ∀ l ∈ contentLinesOf c, contentLineOK l = true := by
  cases c with
  | text s =>
    intro l hl
    exact (contentOK_parts s hc).2.1 l hl
  | binary =>
    intro l hl
    rw [show contentLinesOf Content.binary = ["binary file".data] from rfl] at hl
    rw [List.mem_singleton.mp hl]
    decide

theorem writtenContent_rt (c : Content) (hc : contentOKc c = true) :
    writtenContent (contentLinesOf c) = rtContent c := by
  cases c with
  | text s => exact written_text s hc
  | binary => decide

theorem foldl_recordBlock (p : PyStr) (c : Content) (hp : pathOK p = true)
    (hc : contentOKc c = true) (b : List PyStr) (ws : List (PyStr × PyStr))
    (es : List PyStr) :
    List.foldl processLine ⟨none, b, ws, es⟩ (recordBlockLines p c) =
      ⟨none, [], ws ++ [(p, rtContent c)], es⟩ := by
  have h1 : processLine ⟨none, b, ws, es⟩ (headerLine p) = ⟨some p, [], ws, es⟩ := by
    rw [processLine_headerLine _ p hp, flushFile_idle]
  rw [show recordBlockLines p c =
        headerLine p :: (contentLinesOf c ++ [footerLine p, []]) from rfl]
  rw [show List.foldl processLine (⟨none, b, ws, es⟩ : RevState)
        (headerLine p :: (contentLinesOf c ++ [footerLine p, []])) =
      List.foldl processLine (processLine ⟨none, b, ws, es⟩ (headerLine p))
        (contentLinesOf c ++ [footerLine p, []]) from rfl]
  rw [h1, List.foldl_append,
    foldl_contentLines _ (contentLinesOf_OK c hc) p (pathOK_not_empty p hp) [] ws es]
  have h2 : processLine ⟨some p, [] ++ contentLinesOf c, ws, es⟩ (footerLine p) =
      ⟨none, [], ws ++ [(p, rtContent c)], es⟩ := by
    rw [processLine_footerLine,
      flushFile_open p _ _ _ (pathOK_not_empty p hp), List.nil_append,
      normalizeHeaderPath_OK p hp, writtenContent_rt c hc]
  rw [show List.foldl processLine (⟨some p, [] ++ contentLinesOf c, ws, es⟩ : RevState)
        [footerLine p, []] =
      List.foldl processLine
        (processLine ⟨some p, [] ++ contentLinesOf c, ws, es⟩ (footerLine p)) [[]] from rfl]
  rw [h2]
  rw [show List.foldl processLine (⟨none, [], ws ++ [(p, rtContent c)], es⟩ : RevState) [[]] =
      processLine ⟨none, [], ws ++ [(p, rtContent c)], es⟩ [] from rfl]
  rw [processLine_blank _ rfl]

theorem foldl_recordBlocks (recs : List (PyStr × Content))
    (h : ∀ r ∈ recs, pathOK r.1 = true ∧ contentOKc r.2 = true)
    (b : List PyStr) (ws : List (PyStr × PyStr)) (es : List PyStr) :
    ∃ b2, List.foldl processLine ⟨none, b, ws, es⟩
        (recs.flatMap (fun r => recordBlockLines r.1 r.2)) =
      ⟨none, b2, ws ++ recs.map (fun r => (r.1, rtContent r.2)), es⟩ := by
  induction recs generalizing b ws with
  | nil => exact ⟨b, by simp⟩
  | cons r recs ih =>
    rw [List.flatMap_cons, List.foldl_append,
      foldl_recordBlock r.1 r.2 (h r (by simp)).1 (h r (by simp)).2 b ws es]
    obtain ⟨b2, hb2⟩ := ih (fun x hx => h x (by simp [hx])) [] (ws ++ [(r.1, rtContent r.2)])
    refine ⟨b2, ?_⟩
    rw [hb2]
    simp

/-! ## The encoded document as a list of lines -/

theorem processedContent_off (core : PyStr → Option PyStr) (isPy : Bool) (s : PyStr) :
    processedContent core argsOff isPy s = s := rfl

theorem pySplitlines_ne_nil (s : PyStr) (h1 : unlines (pySplitlines s) = s)
    (hs : s ≠ []) : pySplitlines s ≠ [] := by
  intro hc
  rw [hc] at h1
  exact hs h1.symm

theorem contentOK_endswith (s : PyStr) (h : contentOK s = true) (hs : s ≠ []) :
    endswith s ['\n'] = true := by
  obtain ⟨h1, _, _⟩ := contentOK_parts s h
  rw [← h1]
  exact unlines_ne_nil_endswith_nl _ (pySplitlines_ne_nil s h1 hs)

theorem emitContent_off_text (core : PyStr → Option PyStr) (p s : PyStr)
    (h : contentOK s = true) :
    emitContent core argsOff p (.text s) = s := by
  have he : emitContent core argsOff p (.text s) =
      s ++ (if (!s.isEmpty && !endswith s ['\n']) = true then ['\n'] else []) := rfl
  by_cases hs : s = []
  · subst hs; rfl
  · rw [he, contentOK_endswith s h hs]
    simp

theorem emitContent_eq_unlines (core : PyStr → Option PyStr) (p : PyStr) (c : Content)
    (hc : contentOKc c = true) :
    emitContent core argsOff p c = unlines (contentLinesOf c) := by
  cases c with
  | text s =>
    rw [emitContent_off_text core p s hc]
    exact ((contentOK_parts s hc).1).symm
  | binary =>
    rw [show emitContent core argsOff p Content.binary = "binary file\n".data from rfl]
    decide

theorem unlines_singleton (l : PyStr) : unlines [l] = l ++ ['\n'] := rfl

theorem fileRecord_eq_unlines (core : PyStr → Option PyStr) (p : PyStr) (c : Content)
    (hc : contentOKc c = true) :
    fileRecord core argsOff p c = unlines (recordBlockLines p c) := by
  have hrb : recordBlockLines p c =
      [headerLine p] ++ (contentLinesOf c ++ ([footerLine p] ++ [[]])) := by
    simp [recordBlockLines]
  rw [hrb, unlines_append, unlines_append, unlines_append, unlines_singleton,
    unlines_singleton, ← emitContent_eq_unlines core p c hc]
  unfold fileRecord headerLine footerLine
  rw [show (" ---\n".data : PyStr) = " ---".data ++ ['\n'] from by decide]
  rw [show (" ---\n\n".data : PyStr) = (" ---".data ++ ['\n']) ++ ['\n'] from by decide]
  rw [show unlines [([] : PyStr)] = ['\n'] from rfl]
  simp

theorem flatMap_fileRecord_eq_unlines (core : PyStr → Option PyStr)
    (recs : List (PyStr × Content)) (h : ∀ r ∈ recs, contentOKc r.2 = true) :
    recs.flatMap (fun r => fileRecord core argsOff r.1 r.2) =
      unlines (recs.flatMap (fun r => recordBlockLines r.1 r.2)) := by
  induction recs with
  | nil => rfl
  | cons r recs ih =>
    rw [List.flatMap_cons, List.flatMap_cons, unlines_append,
      fileRecord_eq_unlines core r.1 r.2 (h r (by simp)),
      ih (fun x hx => h x (by simp [hx]))]

theorem treeListLines_ne_nil (rootDisplay : PyStr) (excl : List PyStr) (t : Tree) :
    treeListLines rootDisplay excl t ≠ [] := by
  rw [treeListLines]
  simp

theorem encodeBundle_eq_unlines (core : PyStr → Option PyStr) (rootDisplay : PyStr)
    (excl : List PyStr) (t : Tree)
    (h : ∀ r ∈ pySorted fstLt (walkDir excl t), contentOKc r.2 = true) :
    encodeBundle core argsOff rootDisplay excl t =
      unlines (("# --- Project Structure ---".data :: [] :: treeListLines rootDisplay excl t ++ [[]]) ++
        SECTION_HEADER :: [] ::
        (pySorted fstLt (walkDir excl t)).flatMap (fun r => recordBlockLines r.1 r.2)) := by
  rw [encodeBundle, concatenate_files, generate_tree_structure]
  rw [flatMap_fileRecord_eq_unlines core _ h]
  rw [show ("# --- Project Structure ---".data :: [] :: treeListLines rootDisplay excl t ++ [[]]) ++
      SECTION_HEADER :: [] ::
        (pySorted fstLt (walkDir excl t)).flatMap (fun r => recordBlockLines r.1 r.2) =
      ["# --- Project Structure ---".data, []] ++
        (treeListLines rootDisplay excl t ++ [[]]) ++
        ([SECTION_HEADER, []] ++
          (pySorted fstLt (walkDir excl t)).flatMap (fun r => recordBlockLines r.1 r.2)) from by
    simp]
  rw [unlines_append, unlines_append, unlines_append, unlines_append]
  rw [unlines_eq_joinNL _ (treeListLines_ne_nil rootDisplay excl t)]
  rw [show ("# --- Project Structure ---\n\n".data : PyStr) =
      unlines ["# --- Project Structure ---".data, []] from by decide]
  rw [show ("\n\n# --- Concatenated Files ---\n\n".data : PyStr) =
      unlines [([] : PyStr), []] ++ unlines [SECTION_HEADER, []] from by decide]
  rw [show unlines [([] : PyStr), []] = ['\n'] ++ ['\n'] from rfl,
    show unlines [([] : PyStr)] = ['\n'] from rfl]
  simp

/-! ## Locating the section header and running the scanner -/

theorem findLineIdx_eq_none (p : PyStr → Bool) (ls : List PyStr)
    (h : ∀ l ∈ ls, p l = false) : findLineIdx p ls = none := by
  induction ls with
  | nil => rfl
  | cons l ls ih =>
    rw [findLineIdx, h l (by simp), ih (fun x hx => h x (by simp [hx]))]
    rfl

theorem findLineIdx_prefix_fail (p : PyStr → Bool) (pre : List PyStr) (x : PyStr)
    (suf : List PyStr) (hpre : ∀ l ∈ pre, p l = false) (hx : p x = true) :
    findLineIdx p (pre ++ x :: suf) = some pre.length := by
  induction pre with
  | nil => rw [List.nil_append, findLineIdx, hx]; rfl
  | cons l pre ih =>
    rw [List.cons_append, findLineIdx, hpre l (by simp),
      ih (fun y hy => hpre y (by simp [hy]))]
    rfl

theorem drop_append_len {α : Type} (pre l : List α) (n : Nat) :
    (pre ++ l).drop (pre.length + n) = l.drop n := by
  induction pre with
  | nil => simp
  | cons a pre ih =>
    rw [List.cons_append, List.length_cons,
      show pre.length + 1 + n = (pre.length + n) + 1 from by omega,
      List.drop_succ_cons, ih]

theorem reverse_mode_unlines_scan (pre : List PyStr) (sh skip : PyStr)
    (rest : List PyStr)
    (hclean : ∀ l ∈ pre ++ sh :: skip :: rest, lineClean l = true)
    (hpre : ∀ l ∈ pre, (pyStrip l == SECTION_HEADER) = false)
    (hsh : (pyStrip sh == SECTION_HEADER) = true) :
    reverse_mode (unlines (pre ++ sh :: skip :: rest)) = runScanner rest := by
  unfold reverse_mode
  rw [pySplitlines_unlines _ hclean]
  simp only [findLineIdx_prefix_fail _ pre sh (skip :: rest) hpre hsh]
  rw [show (pre ++ sh :: skip :: rest).drop (pre.length + 2) = rest from by
    rw [drop_append_len pre (sh :: skip :: rest) 2]
    rfl]

theorem runScanner_blocks (recs : List (PyStr × Content))
    (h : ∀ r ∈ recs, pathOK r.1 = true ∧ contentOKc r.2 = true) :
    runScanner (recs.flatMap (fun r => recordBlockLines r.1 r.2)) =
      (recs.map (fun r => (r.1, rtContent r.2)), []) := by
  unfold runScanner
  obtain ⟨b2, hb2⟩ := foldl_recordBlocks recs h [] [] []
  rw [hb2, flushFile_idle]
  simp

theorem reverse_mode_encode_off (core : PyStr → Option PyStr) (rootDisplay : PyStr)
    (t : Tree) (ht : treeOK t = true) (hrd1 : lineClean rootDisplay = true)
    (hrd2 : pyStrip rootDisplay ≠ SECTION_HEADER) :
    reverse_mode (encodeBundle core argsOff rootDisplay [] t) =
      ((pySorted fstLt (walkDir [] t)).map (fun r => (r.1, rtContent r.2)), []) := by
  have hOK : ∀ r ∈ pySorted fstLt (walkDir [] t),
      pathOK r.1 = true ∧ contentOKc r.2 = true :=
    fun r hr => walkDir_OK [] t ht r ((mem_pySorted _ _ _).mp hr)
  rw [encodeBundle_eq_unlines core rootDisplay [] t (fun r hr => (hOK r hr).2)]
  have hsafe := treeList_safe rootDisplay [] t ht hrd1 hrd2
  have hblocks : ∀ l ∈ (pySorted fstLt (walkDir [] t)).flatMap
      (fun r => recordBlockLines r.1 r.2), lineClean l = true := by
    intro l hl
    rcases List.mem_flatMap.mp hl with ⟨r, hr, hl2⟩
    rcases List.mem_cons.mp hl2 with hl3 | hl3
    · subst hl3
      rw [show headerLine r.1 = "# --- File: ".data ++ (r.1 ++ " ---".data) from by
        simp [headerLine], lineClean_append, lineClean_append,
        pathOK_lineClean r.1 (hOK r hr).1]
      decide
    rcases List.mem_append.mp hl3 with hl4 | hl4
    · exact (contentLineOK_parts l (contentLinesOf_OK r.2 (hOK r hr).2 l hl4)).1
    · rcases List.mem_cons.mp hl4 with hl5 | hl5
      · subst hl5
        rw [show footerLine r.1 = "# --- End of File: ".data ++ (r.1 ++ " ---".data) from by
          simp [footerLine], lineClean_append, lineClean_append,
          pathOK_lineClean r.1 (hOK r hr).1]
        decide
      · rw [List.mem_singleton.mp hl5]
        rfl
  rw [show ("# --- Project Structure ---".data :: [] :: treeListLines rootDisplay [] t ++ [[]]) ++
      SECTION_HEADER :: [] ::
        (pySorted fstLt (walkDir [] t)).flatMap (fun r => recordBlockLines r.1 r.2) =
      ("# --- Project Structure ---".data :: [] :: treeListLines rootDisplay [] t ++ [[]]) ++
      SECTION_HEADER :: ([] : PyStr) ::
        (pySorted fstLt (walkDir [] t)).flatMap (fun r => recordBlockLines r.1 r.2) from rfl]
  rw [reverse_mode_unlines_scan _ _ _ _ ?hcl ?hpr ?hsh, runScanner_blocks _ hOK]
  case hcl =>
    intro l hl
    rcases List.mem_append.mp hl with hl | hl
    · rcases List.mem_cons.mp hl with hl | hl
      · subst hl; decide
      rcases List.mem_cons.mp hl with hl | hl
      · subst hl; rfl
      rcases List.mem_append.mp hl with hl | hl
      · exact (hsafe l hl).1
      · rw [List.mem_singleton.mp hl]; rfl
    · rcases List.mem_cons.mp hl with hl | hl
      · subst hl; decide
      rcases List.mem_cons.mp hl with hl | hl
      · subst hl; rfl
      · exact hblocks l hl
  case hpr =>
    intro l hl
    rcases List.mem_cons.mp hl with hl | hl
    · subst hl; decide
    rcases List.mem_cons.mp hl with hl | hl
    · subst hl; decide
    rcases List.mem_append.mp hl with hl | hl
    · exact beq_eq_false_iff_ne.mpr (hsafe l hl).2
    · rw [List.mem_singleton.mp hl]; decide
  case hsh => decide

/-! ## Remaining shared helpers -/

theorem recordBlockLines_clean (p : PyStr) (c : Content) (hp : pathOK p = true)
    (hc : contentOKc c = true) :
    ∀ l ∈ recordBlockLines p c, lineClean l = true := by
  intro l hl
  rcases List.mem_cons.mp hl with hl | hl
  · subst hl
    rw [show headerLine p = "# --- File: ".data ++ (p ++ " ---".data) from by
      simp [headerLine], lineClean_append, lineClean_append, pathOK_lineClean p hp]
    decide
  rcases List.mem_append.mp hl with hl | hl
  · exact (contentLineOK_parts l (contentLinesOf_OK c hc l hl)).1
  rcases List.mem_cons.mp hl with hl | hl
  · subst hl
    rw [show footerLine p = "# --- End of File: ".data ++ (p ++ " ---".data) from by
      simp [footerLine], lineClean_append, lineClean_append, pathOK_lineClean p hp]
    decide
  · rw [List.mem_singleton.mp hl]
    rfl

theorem append_fixup_endswith (q : PyStr)
    (h : q ++ (if (!q.isEmpty && !endswith q ['\n']) = true then ['\n'] else []) ≠ []) :
    endswith (q ++ (if (!q.isEmpty && !endswith q ['\n']) = true then ['\n'] else []))
      ['\n'] = true := by
  by_cases hcond : (!q.isEmpty && !endswith q ['\n']) = true
  · rw [if_pos hcond]
    exact endswith_append_left q ['\n']
  · rw [if_neg hcond] at h ⊢
    rw [List.append_nil] at h ⊢
    rw [Bool.and_eq_true, not_and_or] at hcond
    rcases hcond with hc | hc
    · rw [Bool.not_eq_true, Bool.not_eq_false'] at hc
      exact absurd (List.isEmpty_iff.mp hc) h
    · rw [Bool.not_eq_true, Bool.not_eq_false'] at hc
      exact hc

/-! ## The claims -/

/-- C8: blank-line stripping is idempotent: applying `remove_blank_lines`
twice yields the same result as applying it once. -/
theorem c8_remove_blank_lines_idem (s : PyStr) :
    remove_blank_lines (remove_blank_lines s) = remove_blank_lines s := by
  have h1 : remove_blank_lines s =
      if ((pySplitlines s).filter (fun l => !(pyStrip l).isEmpty)).isEmpty then []
      else joinNL ((pySplitlines s).filter (fun l => !(pyStrip l).isEmpty)) ++ ['\n'] := rfl
  by_cases hk : ((pySplitlines s).filter (fun l => !(pyStrip l).isEmpty)).isEmpty
  · rw [h1, if_pos hk]
    rfl
  · rw [h1, if_neg hk]
    have hne : (pySplitlines s).filter (fun l => !(pyStrip l).isEmpty) ≠ [] := by
      simpa [List.isEmpty_iff] using hk
    have hclean : ∀ l ∈ (pySplitlines s).filter (fun l => !(pyStrip l).isEmpty),
        lineClean l = true :=
      fun l hl => lineClean_of_mem_pySplitlines s l (List.mem_filter.mp hl).1
    rw [show joinNL ((pySplitlines s).filter (fun l => !(pyStrip l).isEmpty)) ++ ['\n'] =
        unlines ((pySplitlines s).filter (fun l => !(pyStrip l).isEmpty)) from
      (unlines_eq_joinNL _ hne).symm]
    have hsplit := pySplitlines_unlines _ hclean
    have h3 : (pySplitlines (unlines ((pySplitlines s).filter
          (fun l => !(pyStrip l).isEmpty)))).filter (fun l => !(pyStrip l).isEmpty) =
        (pySplitlines s).filter (fun l => !(pyStrip l).isEmpty) := by
      rw [hsplit]
      exact List.filter_eq_self.mpr (fun a ha => (List.mem_filter.mp ha).2)
    rw [show remove_blank_lines (unlines ((pySplitlines s).filter
          (fun l => !(pyStrip l).isEmpty))) =
        (if ((pySplitlines (unlines ((pySplitlines s).filter
              (fun l => !(pyStrip l).isEmpty)))).filter
            (fun l => !(pyStrip l).isEmpty)).isEmpty then []
         else joinNL ((pySplitlines (unlines ((pySplitlines s).filter
              (fun l => !(pyStrip l).isEmpty)))).filter
            (fun l => !(pyStrip l).isEmpty)) ++ ['\n']) from rfl, h3,
      if_neg hk, unlines_eq_joinNL _ hne]

/-- C10: when the exclusion-config file does not exist, `load_exclusions`
returns the empty pattern set and writes nothing to `stderr`; nothing is
excluded and forward mode behaves exactly as with an explicit empty
exclusion set. -/
theorem c10_missing_config :
    load_exclusions none = ([], []) ∧
    (∀ name : PyStr, is_excluded name (load_exclusions none).1 = false) ∧
    (∀ (core : PyStr → Option PyStr) (args : Args) (rootDisplay : PyStr) (t : Tree),
      encodeBundle core args rootDisplay (load_exclusions none).1 t =
        encodeBundle core args rootDisplay [] t) :=
  ⟨rfl, fun _ => rfl, fun _ _ _ _ => rfl⟩

/-- C7: when no line of the decode input strips to the section header, the
decoder reports the missing-header diagnostic and performs no write at all. -/
theorem c7_missing_section_header (input : PyStr)
    (h : ∀ l ∈ pySplitlines input, pyStrip l ≠ SECTION_HEADER) :
    reverse_mode input =
      ([], ["Input file missing '# --- Concatenated Files ---' header.\n".data]) := by
  unfold reverse_mode
  simp only [findLineIdx_eq_none _ _ (fun l hl => beq_eq_false_iff_ne.mpr (h l hl))]

theorem c7_missing_section_header_witness :
    (∀ l ∈ pySplitlines "hello\nworld".data, pyStrip l ≠ SECTION_HEADER) ∧
    reverse_mode "hello\nworld".data =
      ([], ["Input file missing '# --- Concatenated Files ---' header.\n".data]) :=
  ⟨by decide, c7_missing_section_header "hello\nworld".data (by decide)⟩

/-- C3: a file whose bytes do not decode emits the literal sentinel line
`binary file` as its record content, and decoding a record whose buffered
content is exactly that single sentinel line recreates a file containing
exactly the sentinel line (shown also end to end on a one-record bundle). -/
theorem c3_binary_sentinel :
    (∀ (core : PyStr → Option PyStr) (args : Args) (p : PyStr),
      emitContent core args p .binary = "binary file\n".data) ∧
    writtenContent ["binary file".data] = "binary file\n".data ∧
    reverse_mode ("# --- Concatenated Files ---\n\n# --- File: c.bin ---\nbinary file\n# --- End of File: c.bin ---\n").data =
      ([("c.bin".data, "binary file\n".data)], []) :=
  ⟨fun _ _ _ => rfl, by decide, by decide⟩

/-- C4, as stated, is false: the encoder only appends a newline when the
content lacks one; content that already ends in several newlines is written
unchanged, so the emitted record content can end with more than one
newline. Concretely, the text `"x\n\n"` is emitted verbatim. -/
theorem c4_exactly_one_newline_counterexample : ¬ claimC4 := by
  intro h
  have h2 := (h core0 argsOff "a.txt".data (.text "x\n\n".data) (by decide)).2
  revert h2
  decide

/-- C4 (amended): every non-empty emitted record content ends with at least
one trailing newline; one `\n` is appended exactly when the (possibly
transformed) content is non-empty and lacks one. -/
theorem c4_trailing_newline_amended (core : PyStr → Option PyStr) (args : Args)
    (p : PyStr) (c : Content) (h : emitContent core args p c ≠ []) :
    endswith (emitContent core args p c) ['\n'] = true := by
  cases c with
  | binary =>
    rw [show emitContent core args p Content.binary = "binary file\n".data from rfl]
    decide
  | text s =>
    exact append_fixup_endswith (processedContent core args (isPythonFile p) s) h

theorem c4_trailing_newline_amended_witness :
    emitContent core0 argsOff "a.txt".data (.text "x".data) ≠ [] ∧
    endswith (emitContent core0 argsOff "a.txt".data (.text "x".data)) ['\n'] = true :=
  ⟨by decide,
   c4_trailing_newline_amended core0 argsOff "a.txt".data (.text "x".data) (by decide)⟩

/-- C1, as stated, is false: a text file whose content lacks a trailing
newline does not round-trip byte-for-byte — the encoder appends a newline
(source lines 154-155) and the decoder keeps it, so `"hello"` decodes to
`"hello\n"`. -/
theorem c1_roundtrip_counterexample :
    allFiles treeC1cex = [("a.txt".data, Content.text "hello".data)] ∧
    (reverse_mode (encodeBundle core0 argsOff "./".data [] treeC1cex)).1 =
      [("a.txt".data, "hello\n".data)] ∧
    fileContent (reverse_mode (encodeBundle core0 argsOff "./".data [] treeC1cex)).1
      "a.txt".data = some "hello\n".data ∧
    ("hello\n".data : PyStr) ≠ "hello".data := by
  refine ⟨by decide, by decide, by decide, by decide⟩

/-- C1 (amended): encoding with an empty exclusion set and both toggles
off, then decoding into a fresh empty target root, reproduces exactly the
files of the tree — same relative paths, byte-identical content for text
files (binary files become the sentinel) — provided every name is
representable (`nameOK`) and every text content is newline-terminated with
no trailing blank line, only `\n` line breaks, and no line starting with a
record marker (`contentOK`); the root-display line must be a single line
not stripping to the section header. The decoder reports no diagnostic. -/
theorem c1_roundtrip_amended (core : PyStr → Option PyStr) (rootDisplay : PyStr)
    (t : Tree) (ht : treeOK t = true) (hrd1 : lineClean rootDisplay = true)
    (hrd2 : pyStrip rootDisplay ≠ SECTION_HEADER) :
    (reverse_mode (encodeBundle core argsOff rootDisplay [] t)).2 = [] ∧
    ((reverse_mode (encodeBundle core argsOff rootDisplay [] t)).1).Perm
      ((allFiles t).map (fun r => (r.1, rtContent r.2))) := by
  rw [reverse_mode_encode_off core rootDisplay t ht hrd1 hrd2]
  exact ⟨rfl, ((pySorted_perm _ _).map _).trans ((walkDir_perm_allFiles t).map _)⟩

theorem c1_roundtrip_amended_witness :
    treeOK treeC1w = true ∧
    ((reverse_mode (encodeBundle core0 argsOff "./".data [] treeC1w)).2 = [] ∧
     ((reverse_mode (encodeBundle core0 argsOff "./".data [] treeC1w)).1).Perm
       ((allFiles treeC1w).map (fun r => (r.1, rtContent r.2)))) :=
  ⟨by decide,
   c1_roundtrip_amended core0 "./".data treeC1w (by decide) (by decide) (by decide)⟩

/-- C2: exclusion correctness. The traversal records and the tree
listing of a directory tree coincide with those of the pruned tree in
which every excluded file and every excluded directory — together with
its entire subtree — has been removed: so an excluded file or directory
never contributes a record or a listing line, and no descendant of an
excluded directory does either. Moreover (for trees whose entry names
are `/`-free, as every real directory is) splitting any emitted record
path at `/` yields a non-empty list of components, each of which fails
`is_excluded`; in particular no excluded name occurs as a component of
any record path. Finally, every line of the tree listing besides the
root-display line shows a non-excluded directory (`name/`) or file name
at some indentation. -/
theorem c2_exclusion (excl : List PyStr) (t : Tree) :
    (pySorted fstLt (walkDir excl (pruneTree excl t)) =
       pySorted fstLt (walkDir excl t) ∧
     ∀ rootDisplay : PyStr,
       treeListLines rootDisplay excl (pruneTree excl t) =
         treeListLines rootDisplay excl t) ∧
    (namesSlashFree t = true →
      ∀ pc ∈ pySorted fstLt (walkDir excl t),
        splitSlash pc.1 ≠ [] ∧
        (∀ m ∈ splitSlash pc.1, is_excluded m excl = false) ∧
        ∀ name, is_excluded name excl = true → name ∉ splitSlash pc.1) ∧
    (∀ rootDisplay : PyStr, ∀ l ∈ treeListLines rootDisplay excl t,
      l = rootDisplay ∨ ∃ m k, is_excluded m excl = false ∧
        (l = spaces k ++ m ++ ['/'] ∨ l = spaces k ++ m)) := by
  refine ⟨⟨by rw [walkDir_prune], fun rd => treeListLines_prune rd excl t⟩, ?_,
    fun rootDisplay => treeList_shape rootDisplay excl t⟩
  intro ht pc hpc
  obtain ⟨comps, hne, heq, hsf, hnx⟩ :=
    walkDir_components excl t ht pc ((mem_pySorted _ _ _).mp hpc)
  have hsplit : splitSlash pc.1 = comps := by
    rw [heq]
    exact splitSlash_joinSlash comps hne hsf
  refine ⟨by rw [hsplit]; exact hne, by rw [hsplit]; exact hnx, ?_⟩
  intro name hname hmem
  rw [hsplit] at hmem
  have h2 := hnx name hmem
  rw [hname] at h2
  exact Bool.noConfusion h2

theorem c2_exclusion_witness :
    (is_excluded "skip.log".data ["*.log".data, "build".data] = true ∧
     is_excluded "build".data ["*.log".data, "build".data] = true ∧
     pruneTree ["*.log".data, "build".data] treeC2w =
       .consFile "a.txt".data (.text "x\n".data) .nilDir ∧
     pySorted fstLt (walkDir ["*.log".data, "build".data] treeC2w) =
       [("a.txt".data, Content.text "x\n".data)]) ∧
    (splitSlash "a.txt".data ≠ [] ∧
     (∀ m ∈ splitSlash "a.txt".data,
        is_excluded m ["*.log".data, "build".data] = false) ∧
     ∀ name, is_excluded name ["*.log".data, "build".data] = true →
       name ∉ splitSlash "a.txt".data) :=
  ⟨⟨by decide, by decide, by decide, by decide⟩,
   (c2_exclusion ["*.log".data, "build".data] treeC2w).2.1 (by decide)
     ("a.txt".data, Content.text "x\n".data) (by decide)⟩

/-- C5, as stated, is false: a line starting with the file-header marker
but missing the closing ` ---` marker produces no `stderr` diagnostic — on
`docC5cex` the decoder's error list is empty. -/
theorem c5_malformed_counterexample : ¬ claimC5 := by
  intro h
  have h2 := h docC5cex ⟨"# --- File: broken".data, by decide, by decide, by decide⟩
  exact h2 (by decide)

/-- C5 (amended): a line starting with the file-header marker whose
`rstrip` does not end with ` ---` is not reported and is not a header: it
is handled as an ordinary content line — appended to the buffer when a
file with a non-empty path is open, silently discarded otherwise (no file
open, or an open header path that was empty). Decoding does not crash,
and in a document where such a line sits between two well-formed records,
both records are still reconstructed exactly, with no diagnostic. -/
theorem c5_malformed_amended (p1 p2 : PyStr) (c1 c2 : Content) (m : PyStr)
    (hp1 : pathOK p1 = true) (hc1 : contentOKc c1 = true)
    (hp2 : pathOK p2 = true) (hc2 : contentOKc c2 = true)
    (hm1 : startswith m FILE_HEADER = true)
    (hm2 : endswith (pyRstrip m) " ---".data = false)
    (hm3 : lineClean m = true) :
    (∀ st : RevState, processLine st m =
      (match st.currentPath with
       | some p => if p.isEmpty then st else { st with buffer := st.buffer ++ [m] }
       | none => st)) ∧
    reverse_mode (unlines (SECTION_HEADER :: [] ::
        (recordBlockLines p1 c1 ++ m :: recordBlockLines p2 c2))) =
      ([(p1, rtContent c1), (p2, rtContent c2)], []) := by
  have hstep : ∀ st : RevState, processLine st m =
      (match st.currentPath with
       | some p => if p.isEmpty then st else { st with buffer := st.buffer ++ [m] }
       | none => st) := by
    intro st
    unfold processLine
    simp only [hm1, hm2, startswith_header_not_footer m hm1, Bool.true_and,
      Bool.false_eq_true, if_false]
  refine ⟨hstep, ?_⟩
  have hcl : ∀ l ∈ ([] : List PyStr) ++ SECTION_HEADER :: ([] : PyStr) ::
      (recordBlockLines p1 c1 ++ m :: recordBlockLines p2 c2), lineClean l = true := by
    intro l hl
    rw [List.nil_append] at hl
    rcases List.mem_cons.mp hl with hl | hl
    · subst hl; decide
    rcases List.mem_cons.mp hl with hl | hl
    · subst hl; rfl
    rcases List.mem_append.mp hl with hl | hl
    · exact recordBlockLines_clean p1 c1 hp1 hc1 l hl
    rcases List.mem_cons.mp hl with hl | hl
    · subst hl; exact hm3
    · exact recordBlockLines_clean p2 c2 hp2 hc2 l hl
  have hscan := reverse_mode_unlines_scan [] SECTION_HEADER []
    (recordBlockLines p1 c1 ++ m :: recordBlockLines p2 c2) hcl
    (by intro l hl; simp at hl) (by decide)
  rw [List.nil_append] at hscan
  rw [hscan]
  unfold runScanner
  rw [List.foldl_append, foldl_recordBlock p1 c1 hp1 hc1 [] [] []]
  rw [show List.foldl processLine (⟨none, [], [] ++ [(p1, rtContent c1)], []⟩ : RevState)
        (m :: recordBlockLines p2 c2) =
      List.foldl processLine
        (processLine ⟨none, [], [] ++ [(p1, rtContent c1)], []⟩ m)
        (recordBlockLines p2 c2) from rfl]
  rw [hstep ⟨none, [], [] ++ [(p1, rtContent c1)], []⟩]
  rw [show (match (⟨none, [], [] ++ [(p1, rtContent c1)], []⟩ : RevState).currentPath with
       | some p => if p.isEmpty then (⟨none, [], [] ++ [(p1, rtContent c1)], []⟩ : RevState)
           else { (⟨none, [], [] ++ [(p1, rtContent c1)], []⟩ : RevState) with
             buffer := (⟨none, [], [] ++ [(p1, rtContent c1)], []⟩ : RevState).buffer ++ [m] }
       | none => (⟨none, [], [] ++ [(p1, rtContent c1)], []⟩ : RevState)) =
      (⟨none, [], [] ++ [(p1, rtContent c1)], []⟩ : RevState) from rfl]
  rw [foldl_recordBlock p2 c2 hp2 hc2 [] ([] ++ [(p1, rtContent c1)]) []]
  rw [flushFile_idle]
  simp

theorem c5_malformed_amended_witness :
    (startswith "# --- File: broken".data FILE_HEADER = true ∧
     endswith (pyRstrip "# --- File: broken".data) " ---".data = false) ∧
    reverse_mode (unlines (SECTION_HEADER :: [] ::
        (recordBlockLines "a.txt".data (.text "x\n".data) ++
          "# --- File: broken".data :: recordBlockLines "b.txt".data (.text "y\n".data)))) =
      ([("a.txt".data, rtContent (.text "x\n".data)),
        ("b.txt".data, rtContent (.text "y\n".data))], []) :=
  ⟨⟨by decide, by decide⟩,
   (c5_malformed_amended "a.txt".data "b.txt".data (.text "x\n".data) (.text "y\n".data)
     "# --- File: broken".data (by decide) (by decide) (by decide) (by decide)
     (by decide) (by decide) (by decide)).2⟩

/-- C6, as stated, is false: the scanner does not process every line
strictly after the section-header line — it starts two lines past it
(source line 198, `all_lines[start_idx + 2:]`), so a well-formed header on
the line immediately following the section header is skipped and its file
is not reconstructed. -/
theorem c6_scan_counterexample : ¬ claimC6 := by
  intro h
  have h2 := h SECTION_HEADER (recordBlockLines "a.txt".data (.text "x\n".data))
    (by decide) (by decide) (by decide)
  revert h2
  decide

/-- C6 (amended): the scanner processes exactly the lines strictly after
the line that immediately follows the first section-header line (that one
line — the blank separator the encoder always emits there — is skipped);
in particular a well-formed file-header line two lines after the section
header starts a record that is reconstructed. -/
theorem c6_scan_amended (pre : List PyStr) (sh skip : PyStr) (rest : List PyStr)
    (hclean : ∀ l ∈ pre ++ sh :: skip :: rest, lineClean l = true)
    (hpre : ∀ l ∈ pre, (pyStrip l == SECTION_HEADER) = false)
    (hsh : (pyStrip sh == SECTION_HEADER) = true) :
    reverse_mode (unlines (pre ++ sh :: skip :: rest)) = runScanner rest :=
  reverse_mode_unlines_scan pre sh skip rest hclean hpre hsh

theorem c6_scan_amended_witness :
    ((pyStrip SECTION_HEADER == SECTION_HEADER) = true) ∧
    reverse_mode (unlines ([] ++ SECTION_HEADER :: ([] : PyStr) ::
        recordBlockLines "a.txt".data (.text "x\n".data))) =
      runScanner (recordBlockLines "a.txt".data (.text "x\n".data)) :=
  ⟨by decide,
   c6_scan_amended [] SECTION_HEADER []
     (recordBlockLines "a.txt".data (.text "x\n".data))
     (by decide) (by intro l hl; simp at hl) (by decide)⟩

/-- C9: when a bundle contains two records with the same relative path, the
decoder writes both, in order, to that path (each write truncating), so in
a fresh target root the file exists with the content of the last record,
and no diagnostic is emitted. -/
theorem c9_duplicate_last_wins (p : PyStr) (c1 c2 : Content)
    (hp : pathOK p = true) (h1 : contentOKc c1 = true) (h2 : contentOKc c2 = true) :
    reverse_mode (unlines (SECTION_HEADER :: [] ::
        (recordBlockLines p c1 ++ recordBlockLines p c2))) =
      ([(p, rtContent c1), (p, rtContent c2)], []) ∧
    fileContent [(p, rtContent c1), (p, rtContent c2)] p = some (rtContent c2) := by
  constructor
  · have hcl : ∀ l ∈ ([] : List PyStr) ++ SECTION_HEADER :: ([] : PyStr) ::
        (recordBlockLines p c1 ++ recordBlockLines p c2), lineClean l = true := by
      intro l hl
      rw [List.nil_append] at hl
      rcases List.mem_cons.mp hl with hl | hl
      · subst hl; decide
      rcases List.mem_cons.mp hl with hl | hl
      · subst hl; rfl
      rcases List.mem_append.mp hl with hl | hl
      · exact recordBlockLines_clean p c1 hp h1 l hl
      · exact recordBlockLines_clean p c2 hp h2 l hl
    have hscan := reverse_mode_unlines_scan [] SECTION_HEADER []
      (recordBlockLines p c1 ++ recordBlockLines p c2) hcl
      (by intro l hl; simp at hl) (by decide)
    rw [List.nil_append] at hscan
    rw [hscan]
    rw [show recordBlockLines p c1 ++ recordBlockLines p c2 =
        [(p, c1), (p, c2)].flatMap (fun r => recordBlockLines r.1 r.2) from by simp]
    rw [runScanner_blocks [(p, c1), (p, c2)] ?hok]
    case hok =>
      intro r hr
      rcases List.mem_cons.mp hr with hr | hr
      · subst hr; exact ⟨hp, h1⟩
      · rw [List.mem_singleton.mp hr]; exact ⟨hp, h2⟩
    rfl
  · unfold fileContent
    simp

theorem c9_duplicate_last_wins_witness :
    pathOK "a.txt".data = true ∧
    (reverse_mode (unlines (SECTION_HEADER :: [] ::
        (recordBlockLines "a.txt".data (.text "x\n".data) ++
         recordBlockLines "a.txt".data (.text "y\n".data)))) =
      ([("a.txt".data, rtContent (.text "x\n".data)),
        ("a.txt".data, rtContent (.text "y\n".data))], []) ∧
     fileContent [("a.txt".data, rtContent (.text "x\n".data)),
        ("a.txt".data, rtContent (.text "y\n".data))] "a.txt".data =
       some (rtContent (.text "y\n".data))) :=
  ⟨by decide,
   c9_duplicate_last_wins "a.txt".data (.text "x\n".data) (.text "y\n".data)
     (by decide) (by decide) (by decide)⟩

end ProjectBundler
